import Mathlib

/-
Verification of `multikeydb.py` (successar/multikeydb): a multi-key table store
over SQLite via SQLAlchemy, with JSON-serialized payload values.

The development is a shallow embedding:
* `JVal` and the `encode`/`decode` pair model the structured-value serialization
  the source delegates to Python's `json` module (spec section 6, "value encoding");
  they are modelled from the spec, since the `json` module is not part of this
  repository.  `decode_encode` is the round-trip theorem.
* `Store`/`TableState`/`Row` model the SQLite file: one entry per physical table,
  rows as association lists from column name to a primitive value (`Prim`), with
  the reserved `value` column holding the encoded payload text.
* `MultiKeyDB.create/put/delete/get/filter/dump` are the operations of the
  `MultiKeyDB` class (multikeydb.py lines 21-93), translated statement by
  statement; `Err` is the error taxonomy of spec section 7, standing for the
  Python exceptions the source raises.
-/

def digitChar (d : Nat) : Char :=
  match d with
  | 0 => '0' | 1 => '1' | 2 => '2' | 3 => '3' | 4 => '4'
  | 5 => '5' | 6 => '6' | 7 => '7' | 8 => '8' | _ => '9'

def natDigitsGo : Nat → Nat → List Char → List Char
  | 0, _, acc => acc
  | fuel+1, n, acc => if n = 0 then acc else natDigitsGo fuel (n / 10) (digitChar (n % 10) :: acc)

def natDigits (n : Nat) : List Char :=
  if n = 0 then ['0'] else natDigitsGo n n []

def digitsStep (a : Nat) (c : Char) : Nat := a * 10 + (c.toNat - 48)

def noDigitStart : List Char → Bool
  | [] => true
  | c :: _ => !c.isDigit

def parseDigitsAcc : List Char → Nat → Nat × List Char
  | [], acc => (acc, [])
  | c :: rest, acc =>
    if c.isDigit then parseDigitsAcc rest (digitsStep acc c) else (acc, c :: rest)

def parseDigits1 : List Char → Option (Nat × List Char)
  | [] => none
  | c :: rest => if c.isDigit then some (parseDigitsAcc rest (digitsStep 0 c)) else none

def escapeChar (c : Char) : List Char :=
  if c = '"' then ['\\', '"']
  else if c = '\\' then ['\\', '\\']
  else if c = '\n' then ['\\', 'n']
  else if c = '\t' then ['\\', 't']
  else if c = '\r' then ['\\', 'r']
  else [c]

def escapeList : List Char → List Char
  | [] => []
  | c :: cs => escapeChar c ++ escapeList cs

def encodeStr (cs : List Char) : List Char := '"' :: (escapeList cs ++ ['"'])

def unescapeChar (e : Char) : Option Char :=
  if e = '"' then some '"'
  else if e = '\\' then some '\\'
  else if e = 'n' then some '\n'
  else if e = 't' then some '\t'
  else if e = 'r' then some '\r'
  else none

def parseStringGo (input acc : List Char) : Option (List Char × List Char) :=
  match input with
  | [] => none
  | c :: rest =>
    if c = '"' then some (acc.reverse, rest)
    else if c = '\\' then
      match rest with
      | [] => none
      | e :: rest2 =>
        match unescapeChar e with
        | some u => parseStringGo rest2 (u :: acc)
        | none => none
    else parseStringGo rest (c :: acc)

mutual
/-- Modelled from the spec: the structured values handled by the value encoding
(spec section 6): null, booleans, numbers (modelled as integers), text, sequences,
and text-keyed mappings.  Python's `None` is `JVal.null`.  Mutual with `JList`
and `JObj` so all recursions are structural. -/
inductive JVal where
  | null : JVal
  | b (x : Bool) : JVal
  | num (n : Int) : JVal
  | str (s : String) : JVal
  | arr (xs : JList) : JVal
  | obj (fs : JObj) : JVal
  deriving DecidableEq
inductive JList where
  | nil : JList
  | cons (x : JVal) (xs : JList) : JList
  deriving DecidableEq
inductive JObj where
  | nil : JObj
  | cons (k : String) (v : JVal) (fs : JObj) : JObj
  deriving DecidableEq
end

def encodeInt (n : Int) : List Char :=
  if n < 0 then '-' :: natDigits n.natAbs else natDigits n.toNat

mutual
def encodeVal : JVal → List Char
  | .null => ['n', 'u', 'l', 'l']
  | .b true => ['t', 'r', 'u', 'e']
  | .b false => ['f', 'a', 'l', 's', 'e']
  | .num n => encodeInt n
  | .str s => encodeStr s.data
  | .arr xs => '[' :: encodeItems xs
  | .obj fs => '{' :: encodeFields fs
def encodeItems : JList → List Char
  | .nil => [']']
  | .cons x xs => encodeVal x ++ encodeRest xs
def encodeRest : JList → List Char
  | .nil => [']']
  | .cons x xs => ',' :: (encodeVal x ++ encodeRest xs)
def encodeFields : JObj → List Char
  | .nil => ['}']
  | .cons k v fs => encodeStr k.data ++ (':' :: (encodeVal v ++ encodeFRest fs))
def encodeFRest : JObj → List Char
  | .nil => ['}']
  | .cons k v fs => ',' :: (encodeStr k.data ++ (':' :: (encodeVal v ++ encodeFRest fs)))
end

mutual
def sizeV : JVal → Nat
  | .null => 1
  | .b _ => 1
  | .num _ => 1
  | .str _ => 1
  | .arr xs => sizeL xs + 1
  | .obj fs => sizeO fs + 1
def sizeL : JList → Nat
  | .nil => 1
  | .cons x xs => sizeV x + sizeL xs + 1
def sizeO : JObj → Nat
  | .nil => 1
  | .cons _ v fs => sizeV v + sizeO fs + 1
end

def stripPre : List Char → List Char → Option (List Char)
  | [], l => some l
  | _ :: _, [] => none
  | p :: ps, c :: cs => if c = p then stripPre ps cs else none

def headIs (x : Char) : List Char → Bool
  | [] => false
  | c :: _ => c = x

mutual
def parseVal : Nat → List Char → Option (JVal × List Char)
  | 0, _ => none
  | fuel+1, input =>
    match stripPre ['n', 'u', 'l', 'l'] input with
    | some rest => some (.null, rest)
    | none =>
    match stripPre ['t', 'r', 'u', 'e'] input with
    | some rest => some (.b true, rest)
    | none =>
    match stripPre ['f', 'a', 'l', 's', 'e'] input with
    | some rest => some (.b false, rest)
    | none =>
    match input with
    | [] => none
    | c :: rest =>
      if c = '"' then
        match parseStringGo rest [] with
        | some (l, r) => some (.str l.asString, r)
        | none => none
      else if c = '[' then
        if headIs ']' rest then some (.arr .nil, rest.tail)
        else
          match parseItems fuel rest with
          | some (xs, r) => some (.arr xs, r)
          | none => none
      else if c = '{' then
        if headIs '}' rest then some (.obj .nil, rest.tail)
        else
          match parseFields fuel rest with
          | some (fs, r) => some (.obj fs, r)
          | none => none
      else if c = '-' then
        match parseDigits1 rest with
        | some (m, r) => some (.num (-(m : Int)), r)
        | none => none
      else
        match parseDigits1 input with
        | some (m, r) => some (.num (m : Int), r)
        | none => none
def parseItems : Nat → List Char → Option (JList × List Char)
  | 0, _ => none
  | fuel+1, input =>
    match parseVal fuel input with
    | none => none
    | some (x, r) =>
      match r with
      | ',' :: r2 =>
        match parseItems fuel r2 with
        | some (xs, r3) => some (.cons x xs, r3)
        | none => none
      | ']' :: r2 => some (.cons x .nil, r2)
      | _ => none
def parseFields : Nat → List Char → Option (JObj × List Char)
  | 0, _ => none
  | fuel+1, input =>
    match input with
    | '"' :: rest =>
      match parseStringGo rest [] with
      | none => none
      | some (k, r1) =>
        match r1 with
        | ':' :: r2 =>
          match parseVal fuel r2 with
          | none => none
          | some (v, r3) =>
            match r3 with
            | ',' :: r4 =>
              match parseFields fuel r4 with
              | some (fs, r5) => some (.cons k.asString v fs, r5)
              | none => none
            | '}' :: r4 => some (.cons k.asString v .nil, r4)
            | _ => none
        | _ => none
    | _ => none
end

/-- Modelled from the spec: serialization of a structured value to its textual
encoding (`json.dumps` at multikeydb.py line 37, which is not part of this
repository).  Emits compact JSON: `null`, `true`/`false`, decimal integers,
quoted strings with backslash escapes, `[..]` sequences and `{"k":v}` mappings. -/
def encode (v : JVal) : String := (encodeVal v).asString

/-- Modelled from the spec: parsing a stored payload back into a structured value
(`json.loads` at multikeydb.py lines 67, 85, 92, not part of this repository).
`none` is a decoding failure.  The fuel `2 * length + 2` dominates the recursion
depth of `parseVal` (each nesting level consumes at least one character and at
most two units of fuel). -/
def decode (s : String) : Option JVal :=
  match parseVal (2 * s.data.length + 2) s.data with
  | some (v, []) => some v
  | _ => none

def valStart (c : Char) : Bool :=
  decide (c = 'n') || decide (c = 't') || decide (c = 'f') || decide (c = '"') ||
    decide (c = '[') || decide (c = '{') || decide (c = '-') || c.isDigit

inductive PType where
  | integer : PType
  | text : PType
  deriving DecidableEq

inductive Prim where
  | int (i : Int) : Prim
  | str (s : String) : Prim
  deriving DecidableEq

abbrev Row := List (String × Prim)

structure TableDef where
  keys : List (String × PType)
  deriving DecidableEq

structure TableState where
  tdef : TableDef
  rows : List Row
  deriving DecidableEq

structure Store where
  tables : List (String × TableState)
  deriving DecidableEq

/-- The error taxonomy of spec section 7, standing for the Python exceptions:
`unknownTable` = KeyError on `self.tables[table]`; `incompleteKey` = the
completeness `assert` (lines 38, 49, 74); `invalidKey` = `assert "value" not in
keys` (line 77); `tableRedefined` = SQLAlchemy's InvalidRequestError when
`Table(name, metadata, *columns)` is called for a name already registered in the
MetaData (line 26); `valueKeyword` = the TypeError of `values(value=..., **keys)`
when `keys` itself has a `value` entry (line 44); `unknownColumn` = KeyError on
`table.c[key]` in `where` (line 34); `decodeFailure` = `json.loads` failure;
`missingColumn` = unreachable for well-formed rows (SQL rows carry every column). -/
inductive Err where
  | unknownTable : Err
  | incompleteKey : Err
  | invalidKey : Err
  | tableRedefined : Err
  | valueKeyword : Err
  | unknownColumn : Err
  | decodeFailure : Err
  | missingColumn : Err
  deriving DecidableEq

/-- First-match lookup in an association list; models both Python dict lookup
(dicts never hold duplicate keys) and reading a named column of a row. -/
def alookup {α : Type} : List (String × α) → String → Option α
  | [], _ => none
  | (k, v) :: rest, c => if k = c then some v else alookup rest c

def TableDef.columns (d : TableDef) : List String := d.keys.map Prod.fst ++ ["value"]

def memStr (c : String) (l : List String) : Bool := l.any (fun x => decide (x = c))

/-- The completeness check shared by `put`/`delete`/`get` (lines 38, 49-51,
74-76): every column of the table is either supplied in `keys` or is the
reserved `value` column. -/
def keysComplete (d : TableDef) (keys : List (String × Prim)) : Bool :=
  d.columns.all (fun col => keys.any (fun kv => decide (kv.1 = col)) || decide (col = "value"))

/-- Whether every supplied key names an actual column; `table.c[key]` in `where`
(line 34) raises KeyError otherwise, before any statement executes. -/
def keysKnown (d : TableDef) (keys : List (String × Prim)) : Bool :=
  keys.all (fun kv => memStr kv.1 d.columns)

/-- The conjunctive equality predicate built by `MultiKeyDB.where` (lines 33-34):
a row matches iff every named column equals the supplied value; the empty mapping
matches everything. -/
def matchesRow (keys : List (String × Prim)) (r : Row) : Bool :=
  keys.all (fun kv => decide (alookup r kv.1 = some kv.2))

def rowFromKeys : List (String × PType) → List (String × Prim) → Option Row
  | [], _ => some []
  | kp :: dk, keys =>
    match alookup keys kp.1, rowFromKeys dk keys with
    | some p, some rest => some ((kp.1, p) :: rest)
    | _, _ => none

/-- The row inserted by `table.insert().values(value=value, **keys)` (line 44):
one entry per key column in declared order, then the `value` column holding the
encoded payload. -/
def buildRow (d : TableDef) (keys : List (String × Prim)) (payload : String) : Option Row :=
  (rowFromKeys d.keys keys).map (fun krow => krow ++ [("value", Prim.str payload)])

/-- The effect on one row of `table.update().values(value=value)` (line 46):
the `value` column is overwritten, every other column is untouched. -/
def setValue : Row → String → Row
  | [], _ => []
  | (k, w) :: rest, payload =>
    if k = "value" then (k, Prim.str payload) :: setValue rest payload
    else (k, w) :: setValue rest payload

/-- Rebinds the named table's state, leaving other tables untouched (Python dict
assignment / the UPDATE touching only one physical table). -/
def replaceTable : List (String × TableState) → String → TableState → List (String × TableState)
  | [], _, _ => []
  | (k, x) :: rest, t, ts =>
    if k = t then (k, ts) :: replaceTable rest t ts
    else (k, x) :: replaceTable rest t ts

def updateTable (st : Store) (t : String) (ts : TableState) : Store :=
  ⟨replaceTable st.tables t ts⟩

inductive FVal where
  | prim (p : Prim) : FVal
  | json (v : JVal) : FVal
  deriving DecidableEq

def mapExcept {A B : Type} (f : A → Except Err B) : List A → Except Err (List B)
  | [] => .ok []
  | a :: t =>
    match f a, mapExcept f t with
    | .ok b, .ok bs => .ok (b :: bs)
    | .error e, _ => .error e
    | .ok _, .error e => .error e

def decodeCol (r : Row) (c : String) : Except Err (String × FVal) :=
  if c = "value" then
    match alookup r c with
    | some (.str s) =>
      match decode s with
      | some v => .ok (c, .json v)
      | none => .error .decodeFailure
    | some (.int _) => .error .decodeFailure
    | none => .error .missingColumn
  else
    match alookup r c with
    | some p => .ok (c, .prim p)
    | none => .error .missingColumn

namespace MultiKeyDB

/-- `MultiKeyDB.create` (lines 21-28).  `Table(table, self.metadata, *columns,
primary_key)` at line 26 raises SQLAlchemy's InvalidRequestError whenever the
name is already registered in the MetaData (which `__init__`'s reflection and
every prior `create` keep in sync with `self.tables`), because column arguments
are given and `extend_existing` is not set — this happens before
`table.create(checkfirst=True)` is reached.  Otherwise the table is created
empty and registered.  The primary-key constraint itself is not modelled; the
`put` protocol is what maintains uniqueness (see `invariant_every_op`). -/
def create (st : Store) (t : String) (keys : List (String × PType)) : Except Err Store :=
  if (alookup st.tables t).isSome then .error .tableRedefined
  else .ok ⟨st.tables ++ [(t, ⟨⟨keys⟩, []⟩)]⟩

/-- `MultiKeyDB.put` (lines 36-46): encode the value, check key completeness,
build the predicate, select; on zero matches insert a fresh row, otherwise
update the `value` column of every matching row. -/
def put (st : Store) (t : String) (keys : List (String × Prim)) (v : JVal) : Except Err Store :=
  match alookup st.tables t with
  | none => .error .unknownTable
  | some ts =>
    if keysComplete ts.tdef keys then
      if keysKnown ts.tdef keys then
        let payload := encode v
        if (ts.rows.filter (matchesRow keys)).isEmpty then
          if keys.any (fun kv => decide (kv.1 = "value")) then .error .valueKeyword
          else
            match buildRow ts.tdef keys payload with
            | some r => .ok (updateTable st t ⟨ts.tdef, ts.rows ++ [r]⟩)
            | none => .error .incompleteKey
        else
          .ok (updateTable st t
            ⟨ts.tdef, ts.rows.map (fun r => if matchesRow keys r then setValue r payload else r)⟩)
      else .error .unknownColumn
    else .error .incompleteKey

/-- `MultiKeyDB.delete` (lines 48-54): completeness assert, then delete every
row matching the predicate.  Note: unlike `get` there is no check that `keys`
avoids the reserved `value` column. -/
def delete (st : Store) (t : String) (keys : List (String × Prim)) : Except Err Store :=
  match alookup st.tables t with
  | none => .error .unknownTable
  | some ts =>
    if keysComplete ts.tdef keys then
      if keysKnown ts.tdef keys then
        .ok (updateTable st t ⟨ts.tdef, ts.rows.filter (fun r => !(matchesRow keys r))⟩)
      else .error .unknownColumn
    else .error .incompleteKey

/-- `MultiKeyDB.get` (lines 73-85): completeness assert, `value not in keys`
assert, select, then `records[0].value` decoded.  Python returns `None` when no
record matches, and `json.loads` returns the same `None` for a stored `"null"`
payload; in the embedding both are the single value `JVal.null`, which is
exactly the conflation of claim C9. -/
def get (st : Store) (t : String) (keys : List (String × Prim)) : Except Err JVal :=
  match alookup st.tables t with
  | none => .error .unknownTable
  | some ts =>
    if keysComplete ts.tdef keys then
      if keys.any (fun kv => decide (kv.1 = "value")) then .error .invalidKey
      else if keysKnown ts.tdef keys then
        match ts.rows.filter (matchesRow keys) with
        | [] => .ok .null
        | r :: _ =>
          match alookup r "value" with
          | some (.str s) =>
            match decode s with
            | some v => .ok v
            | none => .error .decodeFailure
          | some (.int _) => .error .decodeFailure
          | none => .error .missingColumn
      else .error .unknownColumn
    else .error .incompleteKey

/-- `MultiKeyDB.filter` (lines 56-71): no completeness check; empty mapping
selects everything, otherwise the predicate filters; each result keeps only the
columns not named in `keys`, decoding the `value` column. -/
def filter (st : Store) (t : String) (keys : List (String × Prim)) :
    Except Err (List (List (String × FVal))) :=
  match alookup st.tables t with
  | none => .error .unknownTable
  | some ts =>
    let records : Except Err (List Row) :=
      if keys.isEmpty then .ok ts.rows
      else if keysKnown ts.tdef keys then .ok (ts.rows.filter (matchesRow keys))
      else .error .unknownColumn
    match records with
    | .error e => .error e
    | .ok rs =>
      let remaining := ts.tdef.columns.filter (fun c => !(keys.any (fun kv => decide (kv.1 = c))))
      mapExcept (fun r => mapExcept (fun c => decodeCol r c) remaining) rs

/-- `MultiKeyDB.dump` (lines 87-93): every row of every table, all columns with
the payload decoded, tagged with the table name (the `{"table": name, **data}`
dict is modelled as the pair's first component). -/
def dump (st : Store) : Except Err (List (String × List (String × FVal))) :=
  (mapExcept (fun (p : String × TableState) =>
    (mapExcept (fun r => mapExcept (fun c => decodeCol r c) p.2.tdef.columns) p.2.rows).map
      (fun drs => drs.map (fun dr => (p.1, dr)))) st.tables).map List.join

end MultiKeyDB

/-- One public operation of the class, for stating state-evolution properties. -/
inductive Op where
  | createOp (t : String) (keys : List (String × PType)) : Op
  | putOp (t : String) (keys : List (String × Prim)) (v : JVal) : Op
  | deleteOp (t : String) (keys : List (String × Prim)) : Op
  | getOp (t : String) (keys : List (String × Prim)) : Op
  | filterOp (t : String) (keys : List (String × Prim)) : Op
  | dumpOp : Op

/-- The store after one operation: a failed call leaves the store unchanged
(precondition failures raise before any statement; a transaction aborts whole),
and `get`/`filter`/`dump` only SELECT. -/
def applyOp (st : Store) : Op → Store
  | .createOp t keys =>
    match MultiKeyDB.create st t keys with
    | .ok st2 => st2
    | .error _ => st
  | .putOp t keys v =>
    match MultiKeyDB.put st t keys v with
    | .ok st2 => st2
    | .error _ => st
  | .deleteOp t keys =>
    match MultiKeyDB.delete st t keys with
    | .ok st2 => st2
    | .error _ => st
  | .getOp _ _ => st
  | .filterOp _ _ => st
  | .dumpOp => st

/-- Argument well-formedness that Python guarantees syntactically: `keys` is a
dict, so its names are distinct; and per spec sections 3 and 9 the reserved
column name `value` is a documented precondition violation among created key
columns. -/
def wfOp : Op → Bool
  | .createOp _ keys => decide ((keys.map Prod.fst).Nodup) && !(memStr "value" (keys.map Prod.fst))
  | .putOp _ keys _ => decide ((keys.map Prod.fst).Nodup)
  | .deleteOp _ keys => decide ((keys.map Prod.fst).Nodup)
  | .getOp _ _ => true
  | .filterOp _ _ => true
  | .dumpOp => true

/-- The tuple of key-column values of a row — the record's identity (spec
section 3). -/
def keyTuple (d : TableDef) (r : Row) : List (Option Prim) :=
  d.keys.map (fun kp => alookup r kp.1)

/-- At most one record per distinct key tuple (spec section 3, claim C2). -/
def invTable (ts : TableState) : Prop :=
  List.Pairwise (fun r1 r2 => keyTuple ts.tdef r1 ≠ keyTuple ts.tdef r2) ts.rows

def invStore (st : Store) : Prop := ∀ p ∈ st.tables, invTable p.2

def valueFreeTable (ts : TableState) : Prop := ¬("value" ∈ ts.tdef.keys.map Prod.fst)

def wfStore (st : Store) : Prop := ∀ p ∈ st.tables, valueFreeTable p.2 ∧ invTable p.2

def emptyStore : Store := ⟨[]⟩

/-- A sequence of upserts with the same key mapping, stopping at the first
error. -/
def putSeq : Store → String → List (String × Prim) → List JVal → Except Err Store
  | st, _, _, [] => .ok st
  | st, t, keys, v :: vs =>
    match MultiKeyDB.put st t keys v with
    | .ok st2 => putSeq st2 t keys vs
    | .error e => .error e

instance (ts : TableState) : Decidable (invTable ts) :=
  inferInstanceAs (Decidable (List.Pairwise _ ts.rows))

def demoTable : TableState := ⟨⟨[("a", PType.integer)]⟩, []⟩

def demoStore : Store := ⟨[("t", demoTable)]⟩

def demoOps : List Op :=
  [.createOp "t" [("a", .integer)], .putOp "t" [("a", .int 1)] (.num 3),
    .putOp "t" [("a", .int 1)] (.num 4), .putOp "t" [("a", .int 2)] (.b true),
    .deleteOp "t" [("a", .int 2)], .getOp "t" [("a", .int 1)], .filterOp "t" [], .dumpOp]

def twoKeyTable : TableState := ⟨⟨[("a", PType.integer), ("b", PType.text)]⟩, []⟩

def twoKeyStore : Store := ⟨[("t", twoKeyTable)]⟩

def oneRowTable : TableState :=
  ⟨⟨[("a", PType.integer)]⟩, [[("a", Prim.int 2), ("value", Prim.str "7")]]⟩

def oneRowStore : Store := ⟨[("t", oneRowTable)]⟩

def dupRowTable : TableState :=
  ⟨⟨[("a", PType.integer)]⟩,
    [[("a", Prim.int 1), ("value", Prim.str "7")],
      [("a", Prim.int 1), ("value", Prim.str "8")]]⟩

def dupRowStore : Store := ⟨[("t", dupRowTable)]⟩

def twoRowTable : TableState :=
  ⟨⟨[("a", PType.integer)]⟩,
    [[("a", Prim.int 1), ("value", Prim.str "7")],
      [("a", Prim.int 2), ("value", Prim.str "8")]]⟩

def twoRowStore : Store := ⟨[("t", twoRowTable)]⟩

def colOk (r : Row) (c : String) : Bool :=
  if c = "value" then
    match alookup r c with
    | some (.str s) => (decode s).isSome
    | _ => false
  else (alookup r c).isSome

def rowOk (d : TableDef) (r : Row) : Bool := d.columns.all (colOk r)

def decodeColD (r : Row) (c : String) : String × FVal :=
  (c, if c = "value" then
        match alookup r c with
        | some (.str s) =>
          match decode s with
          | some v => FVal.json v
          | none => FVal.json .null
        | _ => FVal.json .null
      else
        match alookup r c with
        | some p => FVal.prim p
        | none => FVal.prim (Prim.int 0))

theorem digitChar_isDigit : ∀ d, d < 10 → (digitChar d).isDigit = true := by decide

theorem digitChar_toNat : ∀ d, d < 10 → (digitChar d).toNat - 48 = d := by decide

theorem natDigitsGo_append (fuel : Nat) : ∀ n acc, natDigitsGo fuel n acc = natDigitsGo fuel n [] ++ acc := by
  induction fuel with
  | zero => intro n acc; simp [natDigitsGo]
  | succ f ih =>
    intro n acc
    by_cases h : n = 0
    · simp [natDigitsGo, h]
    · simp only [natDigitsGo, h, if_false]
      rw [ih (n / 10) (digitChar (n % 10) :: acc), ih (n / 10) [digitChar (n % 10)]]
      simp

theorem natDigitsGo_zero (fuel : Nat) : natDigitsGo fuel 0 [] = [] := by
  cases fuel <;> simp [natDigitsGo]

theorem natDigitsGo_digits (fuel : Nat) : ∀ n c, c ∈ natDigitsGo fuel n [] → ∃ d, d < 10 ∧ c = digitChar d := by
  induction fuel with
  | zero => intro n c hc; simp [natDigitsGo] at hc
  | succ f ih =>
    intro n c hc
    by_cases h : n = 0
    · simp [natDigitsGo, h] at hc
    · rw [natDigitsGo, if_neg h, natDigitsGo_append] at hc
      rcases List.mem_append.mp hc with h1 | h2
      · exact ih _ _ h1
      · simp at h2
        exact ⟨n % 10, Nat.mod_lt _ (by norm_num), h2⟩

theorem natDigitsGo_val (fuel : Nat) : ∀ n, n < 10 ^ fuel →
    ∀ a, List.foldl digitsStep a (natDigitsGo fuel n []) = a * 10 ^ (natDigitsGo fuel n []).length + n := by
  induction fuel with
  | zero =>
    intro n hn a
    interval_cases n
    simp [natDigitsGo]
  | succ f ih =>
    intro n hn a
    by_cases h : n = 0
    · simp [natDigitsGo, h]
    · rw [natDigitsGo, if_neg h, natDigitsGo_append]
      have hdiv : n / 10 < 10 ^ f := by
        rw [Nat.div_lt_iff_lt_mul (by norm_num)]
        calc n < 10 ^ (f + 1) := hn
        _ = 10 ^ f * 10 := by ring
      rw [List.foldl_append, ih _ hdiv a]
      simp only [List.foldl, digitsStep, List.length_append, List.length_singleton]
      rw [digitChar_toNat _ (Nat.mod_lt _ (by norm_num))]
      rw [pow_succ]
      have := Nat.div_add_mod n 10
      ring_nf
      omega

theorem natDigits_ne_nil (n : Nat) : natDigits n ≠ [] := by
  unfold natDigits
  by_cases h : n = 0
  · simp [h]
  · rw [if_neg h]
    cases' hf : n with m
    · exact absurd hf h
    · subst hf
      rw [natDigitsGo, if_neg h, natDigitsGo_append]
      simp

theorem natDigits_digits (n : Nat) : ∀ c ∈ natDigits n, ∃ d, d < 10 ∧ c = digitChar d := by
  intro c hc
  unfold natDigits at hc
  by_cases h : n = 0
  · simp [h] at hc
    exact ⟨0, by norm_num, hc⟩
  · rw [if_neg h] at hc
    exact natDigitsGo_digits n n c hc

theorem lt_ten_pow (n : Nat) : n < 10 ^ n := by
  induction n with
  | zero => norm_num
  | succ m ih =>
    have h1 : 10 ^ m ≥ 1 := Nat.one_le_pow _ _ (by norm_num)
    calc m + 1 ≤ 10 ^ m := by omega
    _ < 10 ^ (m + 1) := by rw [pow_succ]; omega

theorem natDigits_val (n : Nat) : List.foldl digitsStep 0 (natDigits n) = n := by
  unfold natDigits
  by_cases h : n = 0
  · simp [h, digitsStep]
  · rw [if_neg h, natDigitsGo_val n n (lt_ten_pow n) 0]
    simp

theorem parseDigitsAcc_spec : ∀ ds rest a, (∀ c ∈ ds, c.isDigit = true) → noDigitStart rest = true →
    parseDigitsAcc (ds ++ rest) a = (List.foldl digitsStep a ds, rest) := by
  intro ds
  induction ds with
  | nil =>
    intro rest a _ hrest
    cases rest with
    | nil => simp [parseDigitsAcc]
    | cons c t =>
      simp [noDigitStart] at hrest
      simp [parseDigitsAcc, hrest]
  | cons c ds ih =>
    intro rest a hds hrest
    have hc : c.isDigit = true := hds c (by simp)
    simp only [List.cons_append, parseDigitsAcc, hc, if_true, List.append_eq]
    rw [ih rest _ (fun x hx => hds x (by simp [hx])) hrest]
    simp

theorem parseDigits1_natDigits (n : Nat) (rest : List Char) (hrest : noDigitStart rest = true) :
    parseDigits1 (natDigits n ++ rest) = some (n, rest) := by
  cases' he : natDigits n with c ds
  · exact absurd he (natDigits_ne_nil n)
  · have hall : ∀ x ∈ natDigits n, x.isDigit = true := by
      intro x hx
      obtain ⟨d, hd, hxd⟩ := natDigits_digits n x hx
      rw [hxd]; exact digitChar_isDigit d hd
    have hc : c.isDigit = true := by
      apply hall; rw [he]; simp
    simp only [he, List.cons_append, parseDigits1, hc, if_true]
    rw [parseDigitsAcc_spec ds rest _ (fun x hx => by apply hall; rw [he]; simp [hx]) hrest]
    have : List.foldl digitsStep 0 (c :: ds) = n := by rw [← he]; exact natDigits_val n
    simp only [List.foldl] at this
    have h0 : digitsStep 0 c = c.toNat - 48 := by simp [digitsStep]
    rw [h0] at this ⊢
    rw [this]

theorem parseStringGo_close (rest acc : List Char) :
    parseStringGo ('"' :: rest) acc = some (acc.reverse, rest) := by
  rw [parseStringGo.eq_def]
  simp

theorem parseStringGo_esc (e u : Char) (hu : unescapeChar e = some u) (tail acc : List Char) :
    parseStringGo ('\\' :: e :: tail) acc = parseStringGo tail (u :: acc) := by
  rw [parseStringGo.eq_def]
  simp [hu]

theorem parseStringGo_plain (c : Char) (h1 : ¬(c = '"')) (h2 : ¬(c = '\\')) (tail acc : List Char) :
    parseStringGo (c :: tail) acc = parseStringGo tail (c :: acc) := by
  rw [parseStringGo.eq_def]
  simp [h1, h2]

theorem parseStringGo_spec : ∀ cs acc rest,
    parseStringGo (escapeList cs ++ ('"' :: rest)) acc = some (acc.reverse ++ cs, rest) := by
  intro cs
  induction cs with
  | nil =>
    intro acc rest
    simp only [escapeList, List.nil_append]
    rw [parseStringGo_close]
    simp
  | cons c cs ih =>
    intro acc rest
    rw [escapeList]
    by_cases h1 : c = '"'
    · subst h1
      rw [show escapeChar '"' = ['\\', '"'] from rfl]
      simp only [List.cons_append, List.append_assoc, List.nil_append]
      rw [parseStringGo_esc '"' '"' (by decide), ih]
      simp
    · by_cases h2 : c = '\\'
      · subst h2
        rw [show escapeChar '\\' = ['\\', '\\'] from rfl]
        simp only [List.cons_append, List.append_assoc, List.nil_append]
        rw [parseStringGo_esc '\\' '\\' (by decide), ih]
        simp
      · by_cases h3 : c = '\n'
        · subst h3
          rw [show escapeChar '\n' = ['\\', 'n'] from rfl]
          simp only [List.cons_append, List.append_assoc, List.nil_append]
          rw [parseStringGo_esc 'n' '\n' (by decide), ih]
          simp
        · by_cases h4 : c = '\t'
          · subst h4
            rw [show escapeChar '\t' = ['\\', 't'] from rfl]
            simp only [List.cons_append, List.append_assoc, List.nil_append]
            rw [parseStringGo_esc 't' '\t' (by decide), ih]
            simp
          · by_cases h5 : c = '\r'
            · subst h5
              rw [show escapeChar '\r' = ['\\', 'r'] from rfl]
              simp only [List.cons_append, List.append_assoc, List.nil_append]
              rw [parseStringGo_esc 'r' '\r' (by decide), ih]
              simp
            · rw [show escapeChar c = [c] from by simp [escapeChar, h1, h2, h3, h4, h5]]
              simp only [List.cons_append, List.append_assoc, List.nil_append, List.singleton_append]
              rw [parseStringGo_plain c h1 h2, ih]
              simp

theorem data_asString (s : String) : s.data.asString = s := rfl

theorem asString_data (l : List Char) : l.asString.data = l := rfl

theorem sizeV_pos (v : JVal) : 1 ≤ sizeV v := by
  cases v <;> simp [sizeV]

theorem sizeL_pos (xs : JList) : 1 ≤ sizeL xs := by
  cases xs <;> simp [sizeL] <;> omega

theorem sizeO_pos (fs : JObj) : 1 ≤ sizeO fs := by
  cases fs <;> simp [sizeO] <;> omega

theorem encodeInt_start : ∀ n, ∃ c t, encodeInt n = c :: t ∧ valStart c = true := by
  intro n
  unfold encodeInt
  by_cases hn : n < 0
  · exact ⟨'-', natDigits n.natAbs, by rw [if_pos hn], by decide⟩
  · rw [if_neg hn]
    cases' he : natDigits n.toNat with c t
    · exact absurd he (natDigits_ne_nil _)
    · refine ⟨c, t, rfl, ?_⟩
      obtain ⟨d, hd, hcd⟩ := natDigits_digits n.toNat c (by rw [he]; simp)
      subst hcd
      simp [valStart, digitChar_isDigit d hd]

theorem encodeVal_start (v : JVal) : ∃ c t, encodeVal v = c :: t ∧ valStart c = true := by
  cases v with
  | null => exact ⟨'n', _, rfl, by decide⟩
  | b x => cases x
           · exact ⟨'f', _, rfl, by decide⟩
           · exact ⟨'t', _, rfl, by decide⟩
  | num n => simpa [encodeVal] using encodeInt_start n
  | str s => exact ⟨'"', _, rfl, by decide⟩
  | arr xs => exact ⟨'[', _, rfl, by decide⟩
  | obj fs => exact ⟨'{', _, rfl, by decide⟩

theorem parseVal_succ (f : Nat) (input : List Char) : parseVal (f+1) input =
    (match stripPre ['n', 'u', 'l', 'l'] input with
    | some rest => some (.null, rest)
    | none =>
    match stripPre ['t', 'r', 'u', 'e'] input with
    | some rest => some (.b true, rest)
    | none =>
    match stripPre ['f', 'a', 'l', 's', 'e'] input with
    | some rest => some (.b false, rest)
    | none =>
    match input with
    | [] => none
    | c :: rest =>
      if c = '"' then
        match parseStringGo rest [] with
        | some (l, r) => some (.str l.asString, r)
        | none => none
      else if c = '[' then
        if headIs ']' rest then some (.arr .nil, rest.tail)
        else
          match parseItems f rest with
          | some (xs, r) => some (.arr xs, r)
          | none => none
      else if c = '{' then
        if headIs '}' rest then some (.obj .nil, rest.tail)
        else
          match parseFields f rest with
          | some (fs, r) => some (.obj fs, r)
          | none => none
      else if c = '-' then
        match parseDigits1 rest with
        | some (m, r) => some (.num (-(m : Int)), r)
        | none => none
      else
        match parseDigits1 input with
        | some (m, r) => some (.num (m : Int), r)
        | none => none) := rfl

theorem parseItems_succ (f : Nat) (input : List Char) : parseItems (f+1) input =
    (match parseVal f input with
    | none => none
    | some (x, r) =>
      match r with
      | ',' :: r2 =>
        match parseItems f r2 with
        | some (xs, r3) => some (.cons x xs, r3)
        | none => none
      | ']' :: r2 => some (.cons x .nil, r2)
      | _ => none) := rfl

theorem parseFields_succ (f : Nat) (input : List Char) : parseFields (f+1) input =
    (match input with
    | '"' :: rest =>
      match parseStringGo rest [] with
      | none => none
      | some (k, r1) =>
        match r1 with
        | ':' :: r2 =>
          match parseVal f r2 with
          | none => none
          | some (v, r3) =>
            match r3 with
            | ',' :: r4 =>
              match parseFields f r4 with
              | some (fs, r5) => some (.cons k.asString v fs, r5)
              | none => none
            | '}' :: r4 => some (.cons k.asString v .nil, r4)
            | _ => none
        | _ => none
    | _ => none) := rfl

theorem stripPre_self_append (p l : List Char) : stripPre p (p ++ l) = some l := by
  induction p with
  | nil => rfl
  | cons c ps ih => simp [stripPre, ih]

theorem stripPre_ne (p : Char) (ps : List Char) (c : Char) (cs : List Char) (h : ¬(c = p)) :
    stripPre (p :: ps) (c :: cs) = none := by
  simp [stripPre, h]

theorem isDigit_ne_lit (c x : Char) (hc : c.isDigit = true) (hx : x.isDigit = false) : ¬(c = x) := by
  intro he
  subst he
  rw [hc] at hx
  cases hx

theorem valStart_ne (c : Char) (hc : valStart c = true) (x : Char) (hx : valStart x = false) :
    ¬(c = x) := by
  intro he
  subst he
  rw [hc] at hx
  cases hx

theorem noDigitStart_encodeRest (xs : JList) (rest : List Char) :
    noDigitStart (encodeRest xs ++ rest) = true := by
  cases xs <;> simp [encodeRest, noDigitStart]

theorem noDigitStart_encodeFRest (fs : JObj) (rest : List Char) :
    noDigitStart (encodeFRest fs ++ rest) = true := by
  cases fs <;> simp [encodeFRest, noDigitStart]

theorem parse_encode_all (fuel : Nat) :
    (∀ v rest, sizeV v ≤ fuel → noDigitStart rest = true →
      parseVal fuel (encodeVal v ++ rest) = some (v, rest)) ∧
    (∀ x xs rest, sizeV x + sizeL xs ≤ fuel → noDigitStart rest = true →
      parseItems fuel (encodeVal x ++ (encodeRest xs ++ rest)) = some (.cons x xs, rest)) ∧
    (∀ k v fs rest, sizeV v + sizeO fs ≤ fuel → noDigitStart rest = true →
      parseFields fuel (encodeStr k.data ++ (':' :: (encodeVal v ++ (encodeFRest fs ++ rest)))) =
        some (.cons k v fs, rest)) := by
  induction fuel with
  | zero =>
    refine ⟨fun v rest h1 _ => ?_, fun x xs rest h1 _ => ?_, fun k v fs rest h1 _ => ?_⟩
    · exfalso; have := sizeV_pos v; omega
    · exfalso; have h2 := sizeV_pos x; have h3 := sizeL_pos xs; omega
    · exfalso; have h2 := sizeV_pos v; have h3 := sizeO_pos fs; omega
  | succ f ih =>
    obtain ⟨ihV, ihI, ihF⟩ := ih
    refine ⟨fun v rest hfuel hrest => ?_, fun x xs rest hfuel hrest => ?_,
      fun k v fs rest hfuel hrest => ?_⟩
    · cases v with
      | null =>
        show parseVal (f+1) (['n','u','l','l'] ++ rest) = _
        rw [parseVal_succ]
        simp only [List.cons_append, List.nil_append]
        rw [show stripPre ['n','u','l','l'] ('n' :: 'u' :: 'l' :: 'l' ::rest) = some rest from by
          simp [stripPre]]
      | b x =>
        cases x with
        | true =>
          show parseVal (f+1) (['t','r','u','e'] ++ rest) = _
          rw [parseVal_succ]
          simp only [List.cons_append, List.nil_append]
          rw [stripPre_ne _ _ _ _ (by decide)]
          rw [show stripPre ['t','r','u','e'] ('t' :: 'r' :: 'u' :: 'e' ::rest) = some rest from by
            simp [stripPre]]
        | false =>
          show parseVal (f+1) (['f','a','l','s','e'] ++ rest) = _
          rw [parseVal_succ]
          simp only [List.cons_append, List.nil_append]
          rw [stripPre_ne _ _ _ _ (by decide), stripPre_ne _ _ _ _ (by decide)]
          rw [show stripPre ['f','a','l','s','e'] ('f' :: 'a' :: 'l' :: 's' :: 'e' ::rest) = some rest from by
            simp [stripPre]]
      | num n =>
        show parseVal (f+1) (encodeInt n ++ rest) = _
        by_cases hn : n < 0
        · rw [encodeInt, if_pos hn]
          simp only [List.cons_append]
          rw [parseVal_succ]
          rw [stripPre_ne _ _ _ _ (by decide), stripPre_ne _ _ _ _ (by decide),
            stripPre_ne _ _ _ _ (by decide)]
          simp only [if_neg (show ¬('-' = '"') from by decide),
            if_neg (show ¬('-' = '[') from by decide),
            if_neg (show ¬('-' = '{') from by decide), if_pos rfl]
          rw [parseDigits1_natDigits _ _ hrest]
          simp only [if_true]
          have habs : -((n.natAbs : Int)) = n := by omega
          rw [habs]
        · rw [encodeInt, if_neg hn]
          cases' he : natDigits n.toNat with c t
          · exact absurd he (natDigits_ne_nil _)
          · have hc : c.isDigit = true := by
              obtain ⟨d, hd, hcd⟩ := natDigits_digits n.toNat c (by rw [he]; simp)
              rw [hcd]
              exact digitChar_isDigit d hd
            simp only [List.cons_append]
            rw [parseVal_succ]
            rw [stripPre_ne _ _ _ _ (isDigit_ne_lit c 'n' hc (by decide)),
              stripPre_ne _ _ _ _ (isDigit_ne_lit c 't' hc (by decide)),
              stripPre_ne _ _ _ _ (isDigit_ne_lit c 'f' hc (by decide))]
            simp only [if_neg (isDigit_ne_lit c '"' hc (by decide)),
              if_neg (isDigit_ne_lit c '[' hc (by decide)),
              if_neg (isDigit_ne_lit c '{' hc (by decide)),
              if_neg (isDigit_ne_lit c '-' hc (by decide))]
            rw [show (c :: (t ++ rest)) = (c :: t) ++ rest from by simp, ← he,
              parseDigits1_natDigits _ _ hrest]
            simp
            omega
      | str s =>
        show parseVal (f+1) (encodeStr s.data ++ rest) = _
        rw [show encodeStr s.data ++ rest = '"' :: (escapeList s.data ++ ('"' :: rest)) from by
          simp [encodeStr]]
        rw [parseVal_succ]
        rw [stripPre_ne _ _ _ _ (by decide), stripPre_ne _ _ _ _ (by decide),
          stripPre_ne _ _ _ _ (by decide)]
        simp only [if_pos rfl]
        rw [parseStringGo_spec]
        simp [data_asString]
      | arr xs =>
        cases xs with
        | nil =>
          show parseVal (f+1) ('[' :: encodeItems .nil ++ rest) = _
          rw [show encodeItems .nil = [']'] from rfl]
          simp only [List.cons_append, List.nil_append]
          rw [parseVal_succ]
          rw [stripPre_ne _ _ _ _ (by decide), stripPre_ne _ _ _ _ (by decide),
            stripPre_ne _ _ _ _ (by decide)]
          simp only [if_neg (show ¬('[' = '"') from by decide), if_pos rfl]
          rw [show headIs ']' (']' ::rest) = true from by simp [headIs]]
          simp [List.tail]
        | cons x xs =>
          show parseVal (f+1) ('[' :: encodeItems (.cons x xs) ++ rest) = _
          rw [show encodeItems (.cons x xs) = encodeVal x ++ encodeRest xs from rfl]
          simp only [List.cons_append, List.append_assoc]
          obtain ⟨c, t, hct, hcs⟩ := encodeVal_start x
          have hh : headIs ']' (encodeVal x ++ (encodeRest xs ++ rest)) = false := by
            rw [hct]
            simp only [List.cons_append, headIs]
            exact decide_eq_false (valStart_ne c hcs ']' (by decide))
          rw [parseVal_succ]
          rw [stripPre_ne _ _ _ _ (by decide), stripPre_ne _ _ _ _ (by decide),
            stripPre_ne _ _ _ _ (by decide)]
          simp only [if_neg (show ¬('[' = '"') from by decide), if_pos rfl, hh,
            Bool.false_eq_true, if_false]
          rw [ihI x xs rest (by
            have h1 := sizeV_pos x
            have h2 := sizeL_pos xs
            simp only [sizeV, sizeL] at hfuel
            omega) hrest]
          simp
      | obj fs =>
        cases fs with
        | nil =>
          show parseVal (f+1) ('{' :: encodeFields .nil ++ rest) = _
          rw [show encodeFields .nil = ['}'] from rfl]
          simp only [List.cons_append, List.nil_append]
          rw [parseVal_succ]
          rw [stripPre_ne _ _ _ _ (by decide), stripPre_ne _ _ _ _ (by decide),
            stripPre_ne _ _ _ _ (by decide)]
          simp only [if_neg (show ¬('{' = '"') from by decide),
            if_neg (show ¬('{' = '[') from by decide), if_pos rfl]
          rw [show headIs '}' ('}' ::rest) = true from by simp [headIs]]
          simp [List.tail]
        | cons k v fs =>
          show parseVal (f+1) ('{' :: encodeFields (.cons k v fs) ++ rest) = _
          rw [show encodeFields (.cons k v fs) =
            encodeStr k.data ++ (':' :: (encodeVal v ++ encodeFRest fs)) from rfl]
          simp only [List.cons_append, List.append_assoc]
          have hh : headIs '}'
              (encodeStr k.data ++ ((':' :: (encodeVal v ++ (encodeFRest fs ++ rest))))) = false := by
            rw [show encodeStr k.data = '"' :: (escapeList k.data ++ ['"']) from rfl]
            simp only [List.cons_append, headIs]
            exact decide_eq_false (by decide)
          rw [parseVal_succ]
          rw [stripPre_ne _ _ _ _ (by decide), stripPre_ne _ _ _ _ (by decide),
            stripPre_ne _ _ _ _ (by decide)]
          simp only [if_neg (show ¬('{' = '"') from by decide),
            if_neg (show ¬('{' = '[') from by decide),
            if_pos rfl, hh, Bool.false_eq_true, if_false]
          rw [ihF k v fs rest (by
            have h1 := sizeV_pos v
            have h2 := sizeO_pos fs
            simp only [sizeV, sizeO] at hfuel
            omega) hrest]
          simp
    · rw [parseItems_succ]
      rw [ihV x (encodeRest xs ++ rest)
        (by have := sizeL_pos xs; omega) (noDigitStart_encodeRest xs rest)]
      cases xs with
      | nil =>
        rw [show encodeRest .nil = [']'] from rfl]
        simp
      | cons y ys =>
        rw [show encodeRest (.cons y ys) = ',' :: (encodeVal y ++ encodeRest ys) from rfl]
        simp only [List.cons_append, List.append_assoc]
        rw [ihI y ys rest (by
          have h1 := sizeV_pos x
          simp only [sizeL] at hfuel
          omega) hrest]
    · rw [show encodeStr k.data ++ (':' :: (encodeVal v ++ (encodeFRest fs ++ rest))) =
        '"' :: (escapeList k.data ++ ('"' :: (':' :: (encodeVal v ++ (encodeFRest fs ++ rest))))) from by
        simp [encodeStr]]
      rw [parseFields_succ]
      simp only [parseStringGo_spec, List.reverse_nil, List.nil_append]
      rw [ihV v (encodeFRest fs ++ rest)
        (by have := sizeO_pos fs; omega) (noDigitStart_encodeFRest fs rest)]
      cases fs with
      | nil =>
        rw [show encodeFRest .nil = ['}'] from rfl]
        simp [data_asString]
      | cons k2 v2 fs2 =>
        rw [show encodeFRest (.cons k2 v2 fs2) =
          ',' :: (encodeStr k2.data ++ (':' :: (encodeVal v2 ++ encodeFRest fs2))) from rfl]
        simp only [List.cons_append, List.append_assoc]
        rw [ihF k2 v2 fs2 rest (by
          have h1 := sizeV_pos v
          simp only [sizeO] at hfuel
          omega) hrest]
        simp [data_asString]

theorem encodeInt_ne_nil (n : Int) : encodeInt n ≠ [] := by
  unfold encodeInt
  by_cases hn : n < 0
  · simp [hn]
  · simp [hn]
    exact natDigits_ne_nil _

theorem encodeInt_length_pos (n : Int) : 1 ≤ (encodeInt n).length := by
  have h := encodeInt_ne_nil n
  cases he : encodeInt n with
  | nil => exact absurd he h
  | cons c t => simp

mutual
theorem sizeV_le_enc : ∀ v : JVal, sizeV v ≤ 2 * (encodeVal v).length
  | .null => by simp [sizeV, encodeVal]
  | .b true => by simp [sizeV, encodeVal]
  | .b false => by simp [sizeV, encodeVal]
  | .num n => by
      have h := encodeInt_length_pos n
      simp only [sizeV, encodeVal]
      omega
  | .str s => by
      simp [sizeV, encodeVal, encodeStr]
      omega
  | .arr xs => by
      have h := sizeL_le_items xs
      simp only [sizeV, encodeVal, List.length_cons]
      omega
  | .obj fs => by
      have h := sizeO_le_fields fs
      simp only [sizeV, encodeVal, List.length_cons]
      omega
theorem sizeL_le_items : ∀ xs : JList, sizeL xs ≤ 2 * (encodeItems xs).length + 1
  | .nil => by simp [sizeL, encodeItems]
  | .cons x xs => by
      have h1 := sizeV_le_enc x
      have h2 := sizeL_le_rest xs
      simp only [sizeL, encodeItems, List.length_append]
      omega
theorem sizeL_le_rest : ∀ xs : JList, sizeL xs ≤ 2 * (encodeRest xs).length
  | .nil => by simp [sizeL, encodeRest]
  | .cons x xs => by
      have h1 := sizeV_le_enc x
      have h2 := sizeL_le_rest xs
      simp only [sizeL, encodeRest, List.length_cons, List.length_append]
      omega
theorem sizeO_le_fields : ∀ fs : JObj, sizeO fs ≤ 2 * (encodeFields fs).length + 1
  | .nil => by simp [sizeO, encodeFields]
  | .cons k v fs => by
      have h1 := sizeV_le_enc v
      have h2 := sizeO_le_frest fs
      simp only [sizeO, encodeFields, List.length_append, List.length_cons]
      omega
theorem sizeO_le_frest : ∀ fs : JObj, sizeO fs ≤ 2 * (encodeFRest fs).length
  | .nil => by simp [sizeO, encodeFRest]
  | .cons k v fs => by
      have h1 := sizeV_le_enc v
      have h2 := sizeO_le_frest fs
      simp only [sizeO, encodeFRest, List.length_cons, List.length_append]
      omega
end

theorem parseVal_encode (v : JVal) (fuel : Nat) (rest : List Char) (h1 : sizeV v ≤ fuel)
    (h2 : noDigitStart rest = true) : parseVal fuel (encodeVal v ++ rest) = some (v, rest) :=
  (parse_encode_all fuel).1 v rest h1 h2

theorem decode_encode (v : JVal) : decode (encode v) = some v := by
  unfold decode encode
  rw [asString_data]
  have h := parseVal_encode v (2 * (encodeVal v).length + 2) []
    (by have := sizeV_le_enc v; omega) rfl
  rw [List.append_nil] at h
  rw [h]

theorem alookup_mem {α : Type} (l : List (String × α)) (c : String) (v : α)
    (h : alookup l c = some v) : (c, v) ∈ l := by
  induction l with
  | nil => simp [alookup] at h
  | cons p rest ih =>
    obtain ⟨k, w⟩ := p
    by_cases hk : k = c
    · subst hk
      simp [alookup] at h
      simp [h]
    · simp [alookup, hk] at h
      simp [ih h]

theorem alookup_of_mem_nodup {α : Type} (l : List (String × α)) (c : String) (v : α)
    (hm : (c, v) ∈ l) (hnd : (l.map Prod.fst).Nodup) : alookup l c = some v := by
  induction l with
  | nil => simp at hm
  | cons p rest ih =>
    obtain ⟨k, w⟩ := p
    simp only [List.map_cons, List.nodup_cons] at hnd
    rcases List.mem_cons.mp hm with h1 | h2
    · simp only [Prod.mk.injEq] at h1
      simp [alookup, h1.1, h1.2]
    · have hk : k ≠ c := by
        intro he
        subst he
        exact hnd.1 (List.mem_map.mpr ⟨(k, v), h2, rfl⟩)
      simp [alookup, hk]
      exact ih h2 hnd.2

theorem alookup_isSome_iff {α : Type} (l : List (String × α)) (c : String) :
    (alookup l c).isSome = true ↔ c ∈ l.map Prod.fst := by
  induction l with
  | nil => simp [alookup]
  | cons p rest ih =>
    obtain ⟨k, w⟩ := p
    by_cases hk : k = c
    · subst hk
      simp [alookup]
    · simp [alookup, hk, ih, Ne.symm hk]

theorem alookup_append {α : Type} (l1 l2 : List (String × α)) (c : String) :
    alookup (l1 ++ l2) c =
      (match alookup l1 c with
      | some v => some v
      | none => alookup l2 c) := by
  induction l1 with
  | nil => simp [alookup]
  | cons p rest ih =>
    obtain ⟨k, w⟩ := p
    by_cases hk : k = c
    · simp [alookup, hk]
    · simp [alookup, hk, ih]

theorem alookup_none_iff {α : Type} (l : List (String × α)) (c : String) :
    alookup l c = none ↔ ¬(c ∈ l.map Prod.fst) := by
  constructor
  · intro h hc
    have := (alookup_isSome_iff l c).mpr hc
    rw [h] at this
    simp at this
  · intro h
    cases he : alookup l c with
    | none => rfl
    | some v =>
      exfalso
      exact h ((alookup_isSome_iff l c).mp (by simp [he]))

theorem matchesRow_iff (keys : List (String × Prim)) (r : Row) :
    matchesRow keys r = true ↔ ∀ kv ∈ keys, alookup r kv.1 = some kv.2 := by
  simp [matchesRow, List.all_eq_true]

theorem memStr_iff (c : String) (l : List String) : memStr c l = true ↔ c ∈ l := by
  simp [memStr, List.any_eq_true]

theorem alookup_setValue_ne (r : Row) (p : String) (c : String) (hc : ¬(c = "value")) :
    alookup (setValue r p) c = alookup r c := by
  induction r with
  | nil => simp [setValue]
  | cons kv rest ih =>
    obtain ⟨k, w⟩ := kv
    by_cases hk : k = "value"
    · subst hk
      have h2 : ¬("value" = c) := fun he => hc he.symm
      simp [setValue, alookup, h2, ih]
    · by_cases hkc : k = c
      · subst hkc
        simp [setValue, alookup, hc]
      · simp [setValue, alookup, hk, hkc, ih]

theorem alookup_setValue_value (r : Row) (p : String) (hv : "value" ∈ r.map Prod.fst) :
    alookup (setValue r p) "value" = some (Prim.str p) := by
  induction r with
  | nil => simp at hv
  | cons kv rest ih =>
    obtain ⟨k, w⟩ := kv
    by_cases hk : k = "value"
    · subst hk
      simp [setValue, alookup]
    · simp only [List.map_cons, List.mem_cons] at hv
      rcases hv with h1 | h2
      · exact absurd h1.symm hk
      · simp [setValue, alookup, hk, ih h2]

theorem setValue_names (r : Row) (p : String) : (setValue r p).map Prod.fst = r.map Prod.fst := by
  induction r with
  | nil => rfl
  | cons kv rest ih =>
    obtain ⟨k, w⟩ := kv
    by_cases hk : k = "value" <;> simp [setValue, hk, ih]

theorem list_all_congr {α : Type} (l : List α) (f g : α → Bool) (h : ∀ x ∈ l, f x = g x) :
    l.all f = l.all g := by
  induction l with
  | nil => rfl
  | cons a t ih =>
    simp only [List.all_cons, h a (by simp), ih (fun x hx => h x (by simp [hx]))]

theorem matchesRow_setValue (keys : List (String × Prim)) (r : Row) (p : String)
    (hnv : ∀ kv ∈ keys, ¬(kv.1 = "value")) :
    matchesRow keys (setValue r p) = matchesRow keys r := by
  simp only [matchesRow]
  exact list_all_congr _ _ _ (fun kv hkv => by
    rw [alookup_setValue_ne r p kv.1 (hnv kv hkv)])

theorem keyTuple_setValue (d : TableDef) (r : Row) (p : String)
    (hval : ¬("value" ∈ d.keys.map Prod.fst)) :
    keyTuple d (setValue r p) = keyTuple d r := by
  simp only [keyTuple]
  apply List.map_congr_left
  intro kp hkp
  apply alookup_setValue_ne
  intro he
  exact hval (List.mem_map.mpr ⟨kp, hkp, he⟩)

theorem alookup_replaceTable_self (l : List (String × TableState)) (t : String) (ts : TableState)
    (h : (alookup l t).isSome) : alookup (replaceTable l t ts) t = some ts := by
  induction l with
  | nil => simp [alookup] at h
  | cons p rest ih =>
    obtain ⟨k, x⟩ := p
    by_cases hk : k = t
    · subst hk
      simp [replaceTable, alookup]
    · simp only [alookup, if_neg hk] at h
      simp only [replaceTable, if_neg hk, alookup, if_neg hk]
      exact ih h

theorem alookup_replaceTable_other (l : List (String × TableState)) (t c : String)
    (ts : TableState) (hc : ¬(c = t)) : alookup (replaceTable l t ts) c = alookup l c := by
  induction l with
  | nil => simp [replaceTable]
  | cons p rest ih =>
    obtain ⟨k, x⟩ := p
    by_cases hk : k = t
    · subst hk
      have h2 : ¬(k = c) := fun he => hc he.symm
      simp only [replaceTable, if_pos rfl, alookup, if_neg h2]
      exact ih
    · simp only [replaceTable, if_neg hk, alookup]
      by_cases hkc : k = c
      · simp [hkc]
      · simp only [if_neg hkc]
        exact ih

theorem mem_replaceTable (l : List (String × TableState)) (t : String) (ts : TableState)
    (p : String × TableState) (hp : p ∈ replaceTable l t ts) : p ∈ l ∨ p.2 = ts := by
  induction l with
  | nil => simp [replaceTable] at hp
  | cons q rest ih =>
    obtain ⟨k, x⟩ := q
    by_cases hk : k = t
    · simp only [replaceTable, hk, if_pos rfl] at hp
      rcases List.mem_cons.mp hp with h1 | h2
      · right; rw [h1]
      · rcases ih h2 with h3 | h4
        · left; exact List.mem_cons.mpr (Or.inr h3)
        · right; exact h4
    · simp only [replaceTable, if_neg hk] at hp
      rcases List.mem_cons.mp hp with h1 | h2
      · left; exact List.mem_cons.mpr (Or.inl h1)
      · rcases ih h2 with h3 | h4
        · left; exact List.mem_cons.mpr (Or.inr h3)
        · right; exact h4

theorem replaceTable_not_mem (l : List (String × TableState)) (t : String) (ts : TableState)
    (h : ¬(t ∈ l.map Prod.fst)) : replaceTable l t ts = l := by
  induction l with
  | nil => rfl
  | cons p rest ih =>
    obtain ⟨k, x⟩ := p
    simp only [List.map_cons, List.mem_cons] at h
    push_neg at h
    have hk : ¬(k = t) := fun he => h.1 he.symm
    simp [replaceTable, hk, ih h.2]

theorem replaceTable_eq_self (l : List (String × TableState)) (t : String) (ts : TableState)
    (hnd : (l.map Prod.fst).Nodup) (h : alookup l t = some ts) : replaceTable l t ts = l := by
  induction l with
  | nil => rfl
  | cons p rest ih =>
    obtain ⟨k, x⟩ := p
    simp only [List.map_cons, List.nodup_cons] at hnd
    by_cases hk : k = t
    · subst hk
      rw [alookup, if_pos rfl] at h
      have hx : x = ts := Option.some.inj h
      subst hx
      rw [replaceTable, if_pos rfl, replaceTable_not_mem rest k x hnd.1]
    · rw [alookup, if_neg hk] at h
      simp [replaceTable, hk, ih hnd.2 h]

theorem list_map_eq {α β : Type} (l : List α) (f g : α → β) :
    l.map f = l.map g ↔ ∀ a ∈ l, f a = g a := by
  induction l with
  | nil => simp
  | cons a t ih => simp [ih]

theorem rowFromKeys_spec (keys : List (String × Prim)) :
    ∀ (dk : List (String × PType)) (krow : Row), rowFromKeys dk keys = some krow →
    krow.map Prod.fst = dk.map Prod.fst ∧
      ∀ c, alookup krow c = if c ∈ dk.map Prod.fst then alookup keys c else none := by
  intro dk
  induction dk with
  | nil =>
    intro krow h
    simp only [rowFromKeys, Option.some.injEq] at h
    subst h
    simp [alookup]
  | cons kp dk2 ih =>
    intro krow h
    rw [rowFromKeys] at h
    cases hl : alookup keys kp.1 with
    | none => rw [hl] at h; simp at h
    | some p =>
      rw [hl] at h
      cases hrest : rowFromKeys dk2 keys with
      | none => rw [hrest] at h; simp at h
      | some krow2 =>
        rw [hrest] at h
        simp only [Option.some.injEq] at h
        subst h
        obtain ⟨hnames, hlook⟩ := ih krow2 hrest
        constructor
        · simp [hnames]
        · intro c
          by_cases hc : c = kp.1
          · subst hc
            simp [alookup, hl]
          · have h2 : ¬(kp.1 = c) := fun he => hc he.symm
            simp only [alookup, if_neg h2, hlook c, List.map_cons, List.mem_cons]
            by_cases hm : c ∈ dk2.map Prod.fst
            · simp [hm, hc]
            · simp [hm, hc]

theorem rowFromKeys_exists (keys : List (String × Prim)) (dk : List (String × PType))
    (h : ∀ kp ∈ dk, (alookup keys kp.1).isSome) :
    ∃ krow, rowFromKeys dk keys = some krow := by
  induction dk with
  | nil => exact ⟨[], rfl⟩
  | cons kp dk2 ih =>
    obtain ⟨krow2, hk2⟩ := ih (fun x hx => h x (by simp [hx]))
    have h1 := h kp (by simp)
    cases hl : alookup keys kp.1 with
    | none => rw [hl] at h1; simp at h1
    | some p => exact ⟨(kp.1, p) :: krow2, by rw [rowFromKeys, hl, hk2]⟩

theorem keysComplete_of_cover (d : TableDef) (keys : List (String × Prim))
    (h : ∀ c ∈ d.keys.map Prod.fst, c ∈ keys.map Prod.fst) : keysComplete d keys = true := by
  simp only [keysComplete, List.all_eq_true, TableDef.columns]
  intro col hcol
  rcases List.mem_append.mp hcol with h1 | h2
  · have h3 := h col h1
    obtain ⟨kv, hkv, hkveq⟩ := List.mem_map.mp h3
    simp only [Bool.or_eq_true, List.any_eq_true, decide_eq_true_eq]
    exact Or.inl ⟨kv, hkv, hkveq⟩
  · simp only [List.mem_singleton] at h2
    simp [h2]

theorem keysKnown_of_sub (d : TableDef) (keys : List (String × Prim))
    (h : ∀ c ∈ keys.map Prod.fst, c ∈ d.columns) : keysKnown d keys = true := by
  simp only [keysKnown, List.all_eq_true]
  intro kv hkv
  rw [memStr_iff]
  exact h kv.1 (List.mem_map.mpr ⟨kv, hkv, rfl⟩)

theorem anyValue_false (keys : List (String × Prim)) (h : ¬("value" ∈ keys.map Prod.fst)) :
    (keys.any fun kv => decide (kv.1 = "value")) = false := by
  rw [List.any_eq_false]
  intro kv hkv
  simp only [decide_eq_true_eq]
  intro he
  exact h (List.mem_map.mpr ⟨kv, hkv, he⟩)

theorem not_value_of_exact (keys : List (String × Prim)) (d : TableDef)
    (hnames : keys.map Prod.fst = d.keys.map Prod.fst)
    (hval : ¬("value" ∈ d.keys.map Prod.fst)) (kv : String × Prim) (hkv : kv ∈ keys) :
    ¬(kv.1 = "value") := by
  intro he
  apply hval
  rw [← hnames]
  exact List.mem_map.mpr ⟨kv, hkv, he⟩

theorem keysComplete_exact (d : TableDef) (keys : List (String × Prim))
    (hnames : keys.map Prod.fst = d.keys.map Prod.fst) : keysComplete d keys = true :=
  keysComplete_of_cover d keys (fun c hc => hnames ▸ hc)

theorem keysKnown_exact (d : TableDef) (keys : List (String × Prim))
    (hnames : keys.map Prod.fst = d.keys.map Prod.fst) : keysKnown d keys = true :=
  keysKnown_of_sub d keys (fun c hc => by
    rw [TableDef.columns]
    exact List.mem_append.mpr (Or.inl (hnames ▸ hc)))

theorem matchesRow_iff_tuple (d : TableDef) (keys : List (String × Prim)) (r : Row)
    (hnames : keys.map Prod.fst = d.keys.map Prod.fst)
    (hnodup : (keys.map Prod.fst).Nodup) :
    matchesRow keys r = true ↔ keyTuple d r = d.keys.map (fun kp => alookup keys kp.1) := by
  rw [matchesRow_iff, keyTuple, list_map_eq]
  constructor
  · intro hm kp hkp
    have hk1 : kp.1 ∈ keys.map Prod.fst := by
      rw [hnames]
      exact List.mem_map.mpr ⟨kp, hkp, rfl⟩
    obtain ⟨kv, hkv, hkveq⟩ := List.mem_map.mp hk1
    have h2 : alookup keys kp.1 = some kv.2 := by
      rw [← hkveq]
      exact alookup_of_mem_nodup keys kv.1 kv.2 (by rw [Prod.mk.eta]; exact hkv) hnodup
    rw [h2, ← hkveq]
    exact hm kv hkv
  · intro hm kv hkv
    have hk1 : kv.1 ∈ d.keys.map Prod.fst := by
      rw [← hnames]
      exact List.mem_map.mpr ⟨kv, hkv, rfl⟩
    obtain ⟨kp, hkp, hkpeq⟩ := List.mem_map.mp hk1
    have h2 := hm kp hkp
    rw [hkpeq] at h2
    rw [h2]
    exact alookup_of_mem_nodup keys kv.1 kv.2 (by rw [Prod.mk.eta]; exact hkv) hnodup

theorem filter_matches_len_le_one (ts : TableState) (keys : List (String × Prim))
    (hnames : keys.map Prod.fst = ts.tdef.keys.map Prod.fst)
    (hnodup : (keys.map Prod.fst).Nodup) (hinv : invTable ts) :
    (ts.rows.filter (matchesRow keys)).length ≤ 1 := by
  have hp : List.Pairwise (fun r1 r2 => keyTuple ts.tdef r1 ≠ keyTuple ts.tdef r2)
      (ts.rows.filter (matchesRow keys)) := hinv.sublist (List.filter_sublist _)
  cases hf : ts.rows.filter (matchesRow keys) with
  | nil => simp
  | cons r1 rest =>
    cases rest with
    | nil => simp
    | cons r2 rest2 =>
      exfalso
      rw [hf] at hp
      have h12 := (List.pairwise_cons.mp hp).1 r2 (by simp)
      have hm1 : matchesRow keys r1 = true :=
        (List.mem_filter.mp (by rw [hf]; exact List.mem_cons_self _ _)).2
      have hm2 : matchesRow keys r2 = true :=
        (List.mem_filter.mp (by rw [hf]; simp)).2
      rw [matchesRow_iff_tuple ts.tdef keys r1 hnames hnodup] at hm1
      rw [matchesRow_iff_tuple ts.tdef keys r2 hnames hnodup] at hm2
      exact h12 (hm1.trans hm2.symm)

theorem filter_map_pres {f : Row → Row} {p : Row → Bool} (l : List Row)
    (h : ∀ r ∈ l, p (f r) = p r) : (l.map f).filter p = (l.filter p).map f := by
  induction l with
  | nil => rfl
  | cons r t ih =>
    simp only [List.map_cons, List.filter_cons, h r (by simp)]
    by_cases hp : p r = true
    · simp only [hp, if_true]
      rw [List.map_cons, ih (fun x hx => h x (by simp [hx]))]
    · simp only [Bool.not_eq_true] at hp
      simp only [hp, Bool.false_eq_true, if_false]
      exact ih (fun x hx => h x (by simp [hx]))

theorem buildRow_spec (d : TableDef) (keys : List (String × Prim)) (payload : String) (r : Row)
    (hval : ¬("value" ∈ d.keys.map Prod.fst))
    (h : buildRow d keys payload = some r) :
    r.map Prod.fst = d.columns ∧
    alookup r "value" = some (Prim.str payload) ∧
    (∀ c ∈ d.keys.map Prod.fst, alookup r c = alookup keys c) := by
  rw [buildRow] at h
  cases hrk : rowFromKeys d.keys keys with
  | none => rw [hrk] at h; simp at h
  | some krow =>
    rw [hrk] at h
    simp only [Option.map] at h
    have h2 := Option.some.inj h
    subst h2
    obtain ⟨hnames, hlook⟩ := rowFromKeys_spec keys d.keys krow hrk
    refine ⟨?_, ?_, ?_⟩
    · simp [TableDef.columns, hnames]
    · rw [alookup_append]
      have h1 : alookup krow "value" = none := by
        rw [hlook]
        simp [hval]
      rw [h1]
      simp [alookup]
    · intro c hc
      rw [alookup_append, hlook c]
      simp only [hc, if_true]
      cases hl : alookup keys c with
      | none =>
        have hcv : ¬("value" = c) := fun he => hval (he ▸ hc)
        simp [alookup, hcv]
      | some p => simp

theorem put_step (st : Store) (t : String) (ts : TableState) (keys : List (String × Prim)) (v : JVal)
    (hts : alookup st.tables t = some ts)
    (hval : ¬("value" ∈ ts.tdef.keys.map Prod.fst))
    (hnames : keys.map Prod.fst = ts.tdef.keys.map Prod.fst)
    (hnodup : (keys.map Prod.fst).Nodup)
    (hone : (ts.rows.filter (matchesRow keys)).length ≤ 1)
    (hrowsWF : ∀ r ∈ ts.rows, "value" ∈ r.map Prod.fst) :
    ∃ rows2 r2, MultiKeyDB.put st t keys v = .ok (updateTable st t ⟨ts.tdef, rows2⟩) ∧
      rows2.filter (matchesRow keys) = [r2] ∧
      alookup r2 "value" = some (Prim.str (encode v)) ∧
      (∀ r ∈ rows2, "value" ∈ r.map Prod.fst) := by
  have hc := keysComplete_exact ts.tdef keys hnames
  have hk := keysKnown_exact ts.tdef keys hnames
  have hvk : ¬("value" ∈ keys.map Prod.fst) := by
    rw [hnames]
    exact hval
  have hanyv := anyValue_false keys hvk
  by_cases hemp : (ts.rows.filter (matchesRow keys)).isEmpty = true
  · have hfnil : ts.rows.filter (matchesRow keys) = [] := by
      rwa [List.isEmpty_iff] at hemp
    obtain ⟨krow, hkrow⟩ := rowFromKeys_exists keys ts.tdef.keys (fun kp hkp => by
      rw [alookup_isSome_iff]
      rw [hnames]
      exact List.mem_map.mpr ⟨kp, hkp, rfl⟩)
    have hbuild : buildRow ts.tdef keys (encode v) = some (krow ++ [("value", Prim.str (encode v))]) := by
      rw [buildRow, hkrow]
      rfl
    obtain ⟨hbnames, hbval, hblook⟩ :=
      buildRow_spec ts.tdef keys (encode v) _ hval hbuild
    refine ⟨ts.rows ++ [krow ++ [("value", Prim.str (encode v))]],
      krow ++ [("value", Prim.str (encode v))], ?_, ?_, hbval, ?_⟩
    · simp only [MultiKeyDB.put, hts, hc, if_true, hk, hemp, hanyv, Bool.false_eq_true, if_false,
        hbuild]
    · rw [List.filter_append, hfnil]
      have hm : matchesRow keys (krow ++ [("value", Prim.str (encode v))]) = true := by
        rw [matchesRow_iff]
        intro kv hkv
        have h1 : kv.1 ∈ ts.tdef.keys.map Prod.fst := by
          rw [← hnames]
          exact List.mem_map.mpr ⟨kv, hkv, rfl⟩
        rw [hblook kv.1 h1]
        exact alookup_of_mem_nodup keys kv.1 kv.2 (by rw [Prod.mk.eta]; exact hkv) hnodup
      simp [hm]
    · intro r hr
      rcases List.mem_append.mp hr with h1 | h2
      · exact hrowsWF r h1
      · simp only [List.mem_singleton] at h2
        subst h2
        rw [hbnames, TableDef.columns]
        simp
  · have hfone : ∃ r0, ts.rows.filter (matchesRow keys) = [r0] := by
      cases hf : ts.rows.filter (matchesRow keys) with
      | nil => rw [hf] at hemp; simp at hemp
      | cons r0 rest =>
        cases rest with
        | nil => exact ⟨r0, rfl⟩
        | cons r1 rest2 =>
          rw [hf] at hone
          simp at hone
    obtain ⟨r0, hf⟩ := hfone
    have hr0 : r0 ∈ ts.rows ∧ matchesRow keys r0 = true := by
      have : r0 ∈ ts.rows.filter (matchesRow keys) := by
        rw [hf]
        exact List.mem_cons_self _ _
      exact ⟨(List.mem_filter.mp this).1, (List.mem_filter.mp this).2⟩
    have hnv : ∀ kv ∈ keys, ¬(kv.1 = "value") := not_value_of_exact keys ts.tdef hnames hval
    have hpres : ∀ r ∈ ts.rows,
        matchesRow keys (if matchesRow keys r then setValue r (encode v) else r) =
          matchesRow keys r := by
      intro r _
      by_cases hm : matchesRow keys r = true
      · simp only [hm, if_true]
        rw [matchesRow_setValue keys r (encode v) hnv, hm]
      · simp only [Bool.not_eq_true] at hm
        simp [hm]
    refine ⟨ts.rows.map (fun r => if matchesRow keys r then setValue r (encode v) else r),
      setValue r0 (encode v), ?_, ?_, ?_, ?_⟩
    · simp only [MultiKeyDB.put, hts, hc, if_true, hk, hemp, Bool.false_eq_true, if_false]
    · rw [filter_map_pres ts.rows hpres, hf]
      simp [hr0.2]
    · exact alookup_setValue_value r0 (encode v) (hrowsWF r0 hr0.1)
    · intro r hr
      obtain ⟨r1, hr1, hre⟩ := List.mem_map.mp hr
      subst hre
      by_cases hm : matchesRow keys r1 = true
      · simp only [hm, if_true]
        rw [setValue_names]
        exact hrowsWF r1 hr1
      · simp only [Bool.not_eq_true] at hm
        simp only [hm, Bool.false_eq_true, if_false]
        exact hrowsWF r1 hr1

theorem get_found (st : Store) (t : String) (ts : TableState) (keys : List (String × Prim))
    (r : Row) (rest2 : List Row) (s : String) (v : JVal)
    (hts : alookup st.tables t = some ts)
    (hc : keysComplete ts.tdef keys = true)
    (hnv : (keys.any fun kv => decide (kv.1 = "value")) = false)
    (hk : keysKnown ts.tdef keys = true)
    (hf : ts.rows.filter (matchesRow keys) = r :: rest2)
    (hval : alookup r "value" = some (Prim.str s))
    (hdec : decode s = some v) :
    MultiKeyDB.get st t keys = .ok v := by
  simp only [MultiKeyDB.get, hts, hc, if_true, hnv, Bool.false_eq_true, if_false, hk, hf, hval,
    hdec]

theorem get_absent (st : Store) (t : String) (ts : TableState) (keys : List (String × Prim))
    (hts : alookup st.tables t = some ts)
    (hc : keysComplete ts.tdef keys = true)
    (hnv : (keys.any fun kv => decide (kv.1 = "value")) = false)
    (hk : keysKnown ts.tdef keys = true)
    (hf : ts.rows.filter (matchesRow keys) = []) :
    MultiKeyDB.get st t keys = .ok .null := by
  simp only [MultiKeyDB.get, hts, hc, if_true, hnv, Bool.false_eq_true, if_false, hk, hf]

theorem list_countP_congr {α : Type} (l : List α) (p q : α → Bool)
    (h : ∀ a ∈ l, p a = q a) : l.countP p = l.countP q := by
  induction l with
  | nil => rfl
  | cons a t ih =>
    rw [List.countP_cons, List.countP_cons, h a (by simp),
      ih (fun x hx => h x (by simp [hx]))]

theorem putSeq_aux (t : String) (keys : List (String × Prim))
    (hnodup : (keys.map Prod.fst).Nodup) :
    ∀ (vs : List JVal) (st : Store) (ts : TableState) (vlast : JVal),
    vs.getLast? = some vlast →
    alookup st.tables t = some ts →
    ¬("value" ∈ ts.tdef.keys.map Prod.fst) →
    keys.map Prod.fst = ts.tdef.keys.map Prod.fst →
    (ts.rows.filter (matchesRow keys)).length ≤ 1 →
    (∀ r ∈ ts.rows, "value" ∈ r.map Prod.fst) →
    ∃ st2 ts2 r2, putSeq st t keys vs = .ok st2 ∧ alookup st2.tables t = some ts2 ∧
      ts2.tdef = ts.tdef ∧
      ts2.rows.filter (matchesRow keys) = [r2] ∧
      alookup r2 "value" = some (Prim.str (encode vlast)) ∧
      (∀ r ∈ ts2.rows, "value" ∈ r.map Prod.fst) := by
  intro vs
  induction vs with
  | nil => intro st ts vlast hlast; simp at hlast
  | cons v vs ih =>
    intro st ts vlast hlast hts hval hnames hone hrowsWF
    obtain ⟨rows2, r2, hput, hfilt, hlook, hwf2⟩ :=
      put_step st t ts keys v hts hval hnames hnodup hone hrowsWF
    have hts2 : alookup (updateTable st t ⟨ts.tdef, rows2⟩).tables t = some ⟨ts.tdef, rows2⟩ := by
      apply alookup_replaceTable_self
      rw [hts]
      rfl
    cases vs with
    | nil =>
      simp only [List.getLast?_singleton, Option.some.injEq] at hlast
      subst hlast
      refine ⟨updateTable st t ⟨ts.tdef, rows2⟩, ⟨ts.tdef, rows2⟩, r2, ?_, hts2, rfl, hfilt,
        hlook, hwf2⟩
      rw [putSeq, hput]
      rfl
    | cons w ws =>
      rw [List.getLast?_cons_cons] at hlast
      obtain ⟨st3, ts3, r3, hseq, hts3, htdef3, hfilt3, hlook3, hwf3⟩ :=
        ih (updateTable st t ⟨ts.tdef, rows2⟩) ⟨ts.tdef, rows2⟩ vlast hlast hts2 hval hnames
          (by rw [hfilt]; simp) hwf2
      refine ⟨st3, ts3, r3, ?_, hts3, htdef3, hfilt3, hlook3, hwf3⟩
      rw [putSeq, hput]
      exact hseq

/-- C1: for a table whose key columns do not include the reserved name, a
complete key mapping for exactly those columns, and any nonempty sequence of
values, performing `put` with each value in turn succeeds, a `get` with the same
mapping returns exactly the last value, and the table holds exactly one record
for that key tuple. -/
theorem upsert_convergence (st : Store) (t : String) (ts : TableState)
    (keys : List (String × Prim)) (vs : List JVal) (hvs : vs ≠ [])
    (hts : alookup st.tables t = some ts)
    (hval : ¬("value" ∈ ts.tdef.keys.map Prod.fst))
    (hnames : keys.map Prod.fst = ts.tdef.keys.map Prod.fst)
    (hnodup : (keys.map Prod.fst).Nodup)
    (hinv : invTable ts)
    (hrowsWF : ∀ r ∈ ts.rows, "value" ∈ r.map Prod.fst) :
    ∃ st2 ts2, putSeq st t keys vs = .ok st2 ∧ alookup st2.tables t = some ts2 ∧
      MultiKeyDB.get st2 t keys = .ok (vs.getLast hvs) ∧
      ts2.rows.countP
        (fun r =>
          decide (keyTuple ts2.tdef r = ts2.tdef.keys.map (fun kp => alookup keys kp.1))) = 1 := by
  have hone := filter_matches_len_le_one ts keys hnames hnodup hinv
  have hlast : vs.getLast? = some (vs.getLast hvs) := List.getLast?_eq_getLast vs hvs
  obtain ⟨st2, ts2, r2, hseq, hts2, htdef, hfilt, hlook, hwf2⟩ :=
    putSeq_aux t keys hnodup vs st ts (vs.getLast hvs) hlast hts hval hnames hone hrowsWF
  refine ⟨st2, ts2, hseq, hts2, ?_, ?_⟩
  · exact get_found st2 t ts2 keys r2 [] (encode (vs.getLast hvs)) (vs.getLast hvs) hts2
      (by rw [htdef]; exact keysComplete_exact ts.tdef keys hnames)
      (anyValue_false keys (by rw [hnames]; exact hval))
      (by rw [htdef]; exact keysKnown_exact ts.tdef keys hnames)
      hfilt hlook (decode_encode _)
  · have hpt : ∀ r ∈ ts2.rows,
        (decide (keyTuple ts2.tdef r = ts2.tdef.keys.map (fun kp => alookup keys kp.1))) =
          matchesRow keys r := by
      intro r _
      rw [htdef]
      by_cases hm : matchesRow keys r = true
      · simp [hm, (matchesRow_iff_tuple ts.tdef keys r hnames hnodup).mp hm]
      · simp only [Bool.not_eq_true] at hm
        rw [hm]
        simp only [decide_eq_false_iff_not]
        intro he
        have h2 := (matchesRow_iff_tuple ts.tdef keys r hnames hnodup).mpr he
        rw [hm] at h2
        cases h2
    rw [list_countP_congr ts2.rows _ (matchesRow keys) hpt]
    rw [List.countP_eq_length_filter, hfilt]
    rfl

theorem upsert_convergence_witness :
    ∃ st2 ts2,
      putSeq demoStore "t" [("a", Prim.int 1)] [JVal.num 4, JVal.num 7] = .ok st2 ∧
      alookup st2.tables "t" = some ts2 ∧
      MultiKeyDB.get st2 "t" [("a", Prim.int 1)] =
        .ok ([JVal.num 4, JVal.num 7].getLast (by decide)) ∧
      ts2.rows.countP
        (fun r =>
          decide (keyTuple ts2.tdef r =
            ts2.tdef.keys.map (fun kp => alookup [("a", Prim.int 1)] kp.1))) = 1 :=
  upsert_convergence demoStore "t" demoTable [("a", Prim.int 1)] [JVal.num 4, JVal.num 7]
    (by decide) rfl (by decide) rfl (by decide) (by decide) (by decide)

theorem not_value_of_any_false (keys : List (String × Prim))
    (h : (keys.any fun kv => decide (kv.1 = "value")) = false) :
    ¬("value" ∈ keys.map Prod.fst) := by
  intro hmem
  obtain ⟨kv, hkv, hkveq⟩ := List.mem_map.mp hmem
  rw [List.any_eq_false] at h
  have h2 := h kv hkv
  simp [hkveq] at h2

theorem put_ok_cases (st : Store) (t : String) (keys : List (String × Prim)) (v : JVal)
    (st2 : Store) (h : MultiKeyDB.put st t keys v = .ok st2) :
    ∃ ts, alookup st.tables t = some ts ∧ keysComplete ts.tdef keys = true ∧
      keysKnown ts.tdef keys = true ∧
      ((∃ r, ts.rows.filter (matchesRow keys) = [] ∧
          ¬("value" ∈ keys.map Prod.fst) ∧
          buildRow ts.tdef keys (encode v) = some r ∧
          st2 = updateTable st t ⟨ts.tdef, ts.rows ++ [r]⟩) ∨
        (ts.rows.filter (matchesRow keys) ≠ [] ∧
          st2 = updateTable st t
            ⟨ts.tdef,
              ts.rows.map (fun r => if matchesRow keys r then setValue r (encode v) else r)⟩)) := by
  cases hts : alookup st.tables t with
  | none => simp [MultiKeyDB.put, hts] at h
  | some ts =>
    simp only [MultiKeyDB.put, hts] at h
    by_cases hc : keysComplete ts.tdef keys = true
    · rw [if_pos hc] at h
      by_cases hk : keysKnown ts.tdef keys = true
      · rw [if_pos hk] at h
        by_cases hemp : (ts.rows.filter (matchesRow keys)).isEmpty = true
        · rw [if_pos hemp] at h
          by_cases hanyv : (keys.any fun kv => decide (kv.1 = "value")) = true
          · rw [if_pos hanyv] at h
            cases h
          · rw [if_neg hanyv] at h
            cases hbuild : buildRow ts.tdef keys (encode v) with
            | none => rw [hbuild] at h; cases h
            | some r =>
              rw [hbuild] at h
              have h2 := Except.ok.inj h
              refine ⟨ts, rfl, hc, hk, Or.inl ⟨r, ?_, ?_, hbuild, h2.symm⟩⟩
              · rwa [List.isEmpty_iff] at hemp
              · intro hmem
                obtain ⟨kv, hkv, hkveq⟩ := List.mem_map.mp hmem
                exact hanyv (List.any_eq_true.mpr ⟨kv, hkv, by simp [hkveq]⟩)
        · rw [if_neg hemp] at h
          have h2 := Except.ok.inj h
          refine ⟨ts, rfl, hc, hk, Or.inr ⟨?_, h2.symm⟩⟩
          intro hnil
          rw [hnil] at hemp
          simp at hemp
      · rw [if_neg hk] at h
        cases h
    · rw [if_neg hc] at h
      cases h

theorem delete_ok_cases (st : Store) (t : String) (keys : List (String × Prim))
    (st2 : Store) (h : MultiKeyDB.delete st t keys = .ok st2) :
    ∃ ts, alookup st.tables t = some ts ∧
      st2 = updateTable st t ⟨ts.tdef, ts.rows.filter (fun r => !(matchesRow keys r))⟩ := by
  cases hts : alookup st.tables t with
  | none => simp [MultiKeyDB.delete, hts] at h
  | some ts =>
    simp only [MultiKeyDB.delete, hts] at h
    by_cases hc : keysComplete ts.tdef keys = true
    · rw [if_pos hc] at h
      by_cases hk : keysKnown ts.tdef keys = true
      · rw [if_pos hk] at h
        exact ⟨ts, rfl, (Except.ok.inj h).symm⟩
      · rw [if_neg hk] at h
        cases h
    · rw [if_neg hc] at h
      cases h

theorem create_ok_cases (st : Store) (t : String) (keys : List (String × PType))
    (st2 : Store) (h : MultiKeyDB.create st t keys = .ok st2) :
    st2 = ⟨st.tables ++ [(t, ⟨⟨keys⟩, []⟩)]⟩ := by
  rw [MultiKeyDB.create] at h
  by_cases he : (alookup st.tables t).isSome = true
  · rw [if_pos he] at h
    cases h
  · rw [if_neg he] at h
    exact (Except.ok.inj h).symm

theorem wf_preserve_put (st : Store) (t : String) (keys : List (String × Prim)) (v : JVal)
    (st2 : Store) (hwf : wfStore st) (hnodup : (keys.map Prod.fst).Nodup)
    (h : MultiKeyDB.put st t keys v = .ok st2) : wfStore st2 := by
  obtain ⟨ts, hts, hc, hk, hcase⟩ := put_ok_cases st t keys v st2 h
  have hts_wf := hwf (t, ts) (alookup_mem st.tables t ts hts)
  have hvf : valueFreeTable ts := hts_wf.1
  have hinv : invTable ts := hts_wf.2
  rcases hcase with ⟨r, hfnil, hnv, hbuild, hst2⟩ | ⟨hfne, hst2⟩
  · subst hst2
    intro p hp
    rcases mem_replaceTable st.tables t _ p hp with h1 | h2
    · exact hwf p h1
    · rw [h2]
      refine ⟨hvf, ?_⟩
      obtain ⟨hbnames, hbval, hblook⟩ := buildRow_spec ts.tdef keys (encode v) r hvf hbuild
      rw [invTable]
      rw [List.pairwise_append]
      refine ⟨hinv, List.pairwise_singleton _ _, ?_⟩
      intro a ha b2 hb2
      simp only [List.mem_singleton] at hb2
      rw [hb2]
      intro htup
      have hmatch : matchesRow keys a = true := by
        rw [matchesRow_iff]
        intro kv hkv
        have hkcol : kv.1 ∈ ts.tdef.keys.map Prod.fst := by
          have hmem : kv.1 ∈ ts.tdef.columns := by
            rw [← memStr_iff]
            rw [keysKnown, List.all_eq_true] at hk
            exact hk kv hkv
          rw [TableDef.columns] at hmem
          rcases List.mem_append.mp hmem with hm1 | hm2
          · exact hm1
          · simp only [List.mem_singleton] at hm2
            exact absurd (List.mem_map.mpr ⟨kv, hkv, hm2⟩) hnv
        obtain ⟨kp, hkp, hkpeq⟩ := List.mem_map.mp hkcol
        have hpt : alookup a kv.1 = alookup r kv.1 := by
          rw [keyTuple, keyTuple, list_map_eq] at htup
          have h3 := htup kp hkp
          rwa [hkpeq] at h3
        rw [hpt, hblook kv.1 hkcol]
        exact alookup_of_mem_nodup keys kv.1 kv.2 (by rw [Prod.mk.eta]; exact hkv) hnodup
      have : a ∈ ts.rows.filter (matchesRow keys) := List.mem_filter.mpr ⟨ha, hmatch⟩
      rw [hfnil] at this
      simp at this
  · subst hst2
    intro p hp
    rcases mem_replaceTable st.tables t _ p hp with h1 | h2
    · exact hwf p h1
    · rw [h2]
      refine ⟨hvf, ?_⟩
      rw [invTable, List.pairwise_map]
      apply hinv.imp
      intro a b hab
      have hta : keyTuple ts.tdef (if matchesRow keys a then setValue a (encode v) else a) =
          keyTuple ts.tdef a := by
        by_cases hm : matchesRow keys a = true
        · simp only [hm, if_true]
          exact keyTuple_setValue ts.tdef a (encode v) hvf
        · simp only [Bool.not_eq_true] at hm
          simp [hm]
      have htb : keyTuple ts.tdef (if matchesRow keys b then setValue b (encode v) else b) =
          keyTuple ts.tdef b := by
        by_cases hm : matchesRow keys b = true
        · simp only [hm, if_true]
          exact keyTuple_setValue ts.tdef b (encode v) hvf
        · simp only [Bool.not_eq_true] at hm
          simp [hm]
      rw [hta, htb]
      exact hab

theorem wf_preserve_delete (st : Store) (t : String) (keys : List (String × Prim))
    (st2 : Store) (hwf : wfStore st) (h : MultiKeyDB.delete st t keys = .ok st2) :
    wfStore st2 := by
  obtain ⟨ts, hts, hst2⟩ := delete_ok_cases st t keys st2 h
  have hts_wf := hwf (t, ts) (alookup_mem st.tables t ts hts)
  subst hst2
  intro p hp
  rcases mem_replaceTable st.tables t _ p hp with h1 | h2
  · exact hwf p h1
  · rw [h2]
    exact ⟨hts_wf.1, hts_wf.2.sublist (List.filter_sublist _)⟩

theorem wf_preserve_create (st : Store) (t : String) (keys : List (String × PType))
    (st2 : Store) (hwf : wfStore st) (hval : ¬("value" ∈ keys.map Prod.fst))
    (h : MultiKeyDB.create st t keys = .ok st2) : wfStore st2 := by
  have hst2 := create_ok_cases st t keys st2 h
  subst hst2
  intro p hp
  rcases List.mem_append.mp hp with h1 | h2
  · exact hwf p h1
  · simp only [List.mem_singleton] at h2
    subst h2
    exact ⟨hval, List.Pairwise.nil⟩

theorem wf_applyOp (st : Store) (op : Op) (hwf : wfStore st) (hop : wfOp op = true) :
    wfStore (applyOp st op) := by
  cases op with
  | createOp t keys =>
    simp only [wfOp, Bool.and_eq_true, decide_eq_true_eq, Bool.not_eq_true] at hop
    cases hc : MultiKeyDB.create st t keys with
    | ok st2 =>
      simp only [applyOp, hc]
      refine wf_preserve_create st t keys st2 hwf ?_ hc
      intro hmem
      rw [← memStr_iff] at hmem
      have h3 : memStr "value" (keys.map Prod.fst) = false := by simpa using hop.2
      rw [h3] at hmem
      cases hmem
    | error e => simp only [applyOp, hc]; exact hwf
  | putOp t keys v =>
    simp only [wfOp, decide_eq_true_eq] at hop
    cases hc : MultiKeyDB.put st t keys v with
    | ok st2 =>
      simp only [applyOp, hc]
      exact wf_preserve_put st t keys v st2 hwf hop hc
    | error e => simp only [applyOp, hc]; exact hwf
  | deleteOp t keys =>
    cases hc : MultiKeyDB.delete st t keys with
    | ok st2 =>
      simp only [applyOp, hc]
      exact wf_preserve_delete st t keys st2 hwf hc
    | error e => simp only [applyOp, hc]; exact hwf
  | getOp t keys => exact hwf
  | filterOp t keys => exact hwf
  | dumpOp => exact hwf

theorem wf_foldl (ops : List Op) : ∀ st : Store, wfStore st → (∀ op ∈ ops, wfOp op = true) →
    wfStore (ops.foldl applyOp st) := by
  induction ops with
  | nil => intro st hwf _; exact hwf
  | cons op rest ih =>
    intro st hwf hops
    rw [List.foldl_cons]
    exact ih (applyOp st op) (wf_applyOp st op hwf (hops op (by simp)))
      (fun o ho => hops o (by simp [ho]))

/-- C2: starting from the empty store, after any sequence of well-formed
operations (create, put, delete, get, filter, dump) every table holds at most
one record per distinct key tuple. -/
theorem invariant_every_op (ops : List Op) (h : ∀ op ∈ ops, wfOp op = true) :
    invStore (ops.foldl applyOp emptyStore) := by
  have hwf : wfStore (ops.foldl applyOp emptyStore) :=
    wf_foldl ops emptyStore (fun p hp => by simp [emptyStore] at hp) h
  intro p hp
  exact (hwf p hp).2

theorem invariant_every_op_witness :
    (∀ op ∈ demoOps, wfOp op = true) ∧ invStore (demoOps.foldl applyOp emptyStore) :=
  ⟨by decide, invariant_every_op demoOps (by decide)⟩

/-- C3: evaluating the code at the failing input.  Creating the same table
twice with the same name and key set does NOT succeed: the second `create`
raises (SQLAlchemy InvalidRequestError, `tableRedefined`), because line 26
re-registers the name in the MetaData before `checkfirst=True` can make the
backing-store call a no-op.  The claim that repeat creation does not error is
contradicted by the code. -/
theorem create_twice_raises :
    (MultiKeyDB.create emptyStore "t" [("a", PType.integer)]).bind
      (fun st2 => MultiKeyDB.create st2 "t" [("a", PType.integer)]) =
    .error .tableRedefined := rfl

/-- C4: for a table with key columns `[a, b]`, calling `put`, `get`, or
`delete` with a mapping that supplies `a` but omits `b` fails with
`IncompleteKeyError` before touching the backing store, and the store is
unchanged. -/
theorem completeness_check (st : Store) (t a b : String) (x : Prim) (v : JVal) (ts : TableState)
    (hts : alookup st.tables t = some ts)
    (hcols : ts.tdef.keys.map Prod.fst = [a, b])
    (hba : ¬(b = a)) (hbv : ¬(b = "value")) :
    MultiKeyDB.put st t [(a, x)] v = .error .incompleteKey ∧
    MultiKeyDB.get st t [(a, x)] = .error .incompleteKey ∧
    MultiKeyDB.delete st t [(a, x)] = .error .incompleteKey ∧
    applyOp st (.putOp t [(a, x)] v) = st ∧
    applyOp st (.deleteOp t [(a, x)]) = st := by
  have hkc : keysComplete ts.tdef [(a, x)] = false := by
    apply Bool.eq_false_iff.mpr
    intro hkc
    rw [keysComplete, List.all_eq_true] at hkc
    have hb : b ∈ ts.tdef.columns := by
      rw [TableDef.columns, hcols]
      simp
    have h2 := hkc b hb
    simp only [Bool.or_eq_true, List.any_eq_true, decide_eq_true_eq] at h2
    rcases h2 with ⟨kv, hkv, hkveq⟩ | h3
    · simp only [List.mem_singleton] at hkv
      rw [hkv] at hkveq
      exact hba hkveq.symm
    · exact hbv h3
  have h1 : MultiKeyDB.put st t [(a, x)] v = .error .incompleteKey := by
    simp [MultiKeyDB.put, hts, hkc]
  have h2 : MultiKeyDB.get st t [(a, x)] = .error .incompleteKey := by
    simp [MultiKeyDB.get, hts, hkc]
  have h3 : MultiKeyDB.delete st t [(a, x)] = .error .incompleteKey := by
    simp [MultiKeyDB.delete, hts, hkc]
  exact ⟨h1, h2, h3, by simp [applyOp, h1], by simp [applyOp, h3]⟩

theorem completeness_check_witness :
    MultiKeyDB.put twoKeyStore "t" [("a", Prim.int 5)] JVal.null = .error .incompleteKey ∧
    MultiKeyDB.get twoKeyStore "t" [("a", Prim.int 5)] = .error .incompleteKey ∧
    MultiKeyDB.delete twoKeyStore "t" [("a", Prim.int 5)] = .error .incompleteKey ∧
    applyOp twoKeyStore (.putOp "t" [("a", Prim.int 5)] JVal.null) = twoKeyStore ∧
    applyOp twoKeyStore (.deleteOp "t" [("a", Prim.int 5)]) = twoKeyStore :=
  completeness_check twoKeyStore "t" "a" "b" (Prim.int 5) JVal.null twoKeyTable rfl rfl
    (by decide) (by decide)

/-- C8: deleting with a complete key mapping that matches no stored record
succeeds without error and leaves the entire store unchanged. -/
theorem delete_absent_noop (st : Store) (t : String) (ts : TableState)
    (keys : List (String × Prim))
    (hts : alookup st.tables t = some ts)
    (hc : keysComplete ts.tdef keys = true)
    (hk : keysKnown ts.tdef keys = true)
    (hnone : ∀ r ∈ ts.rows, matchesRow keys r = false)
    (hnd : (st.tables.map Prod.fst).Nodup) :
    MultiKeyDB.delete st t keys = .ok st := by
  simp only [MultiKeyDB.delete, hts, hc, if_true, hk]
  have hfilt : ts.rows.filter (fun r => !(matchesRow keys r)) = ts.rows := by
    rw [List.filter_eq_self]
    intro r hr
    simp [hnone r hr]
  rw [hfilt]
  have h2 : updateTable st t ⟨ts.tdef, ts.rows⟩ = st := by
    rw [show (⟨ts.tdef, ts.rows⟩ : TableState) = ts from rfl, updateTable,
      replaceTable_eq_self st.tables t ts hnd hts]
  rw [h2]

theorem delete_absent_noop_witness :
    MultiKeyDB.delete oneRowStore "t" [("a", Prim.int 1)] = .ok oneRowStore :=
  delete_absent_noop oneRowStore "t" oneRowTable [("a", Prim.int 1)] rfl (by decide) (by decide)
    (by decide) (by decide)

theorem put_get_aux (v : JVal) (st : Store) (t : String) (ts : TableState)
    (keys : List (String × Prim))
    (hts : alookup st.tables t = some ts)
    (hval : ¬("value" ∈ ts.tdef.keys.map Prod.fst))
    (hnames : keys.map Prod.fst = ts.tdef.keys.map Prod.fst)
    (hnodup : (keys.map Prod.fst).Nodup)
    (hinv : invTable ts)
    (hrowsWF : ∀ r ∈ ts.rows, "value" ∈ r.map Prod.fst) :
    ∃ st2, MultiKeyDB.put st t keys v = .ok st2 ∧ MultiKeyDB.get st2 t keys = .ok v := by
  have hone := filter_matches_len_le_one ts keys hnames hnodup hinv
  obtain ⟨rows2, r2, hput, hfilt, hlook, hwf2⟩ :=
    put_step st t ts keys v hts hval hnames hnodup hone hrowsWF
  refine ⟨updateTable st t ⟨ts.tdef, rows2⟩, hput, ?_⟩
  have hts2 : alookup (updateTable st t ⟨ts.tdef, rows2⟩).tables t = some ⟨ts.tdef, rows2⟩ := by
    apply alookup_replaceTable_self
    rw [hts]
    rfl
  exact get_found _ t ⟨ts.tdef, rows2⟩ keys r2 [] (encode v) v hts2
    (keysComplete_exact ts.tdef keys hnames)
    (anyValue_false keys (by rw [hnames]; exact hval))
    (keysKnown_exact ts.tdef keys hnames)
    hfilt hlook (decode_encode v)

/-- C6: decoding the encoding of any structured value yields that value back;
consequently an upsert followed by a get with the same key returns a value equal
to the one stored. -/
theorem value_round_trip (v : JVal) :
    decode (encode v) = some v ∧
    (∀ (st : Store) (t : String) (ts : TableState) (keys : List (String × Prim)),
      alookup st.tables t = some ts →
      ¬("value" ∈ ts.tdef.keys.map Prod.fst) →
      keys.map Prod.fst = ts.tdef.keys.map Prod.fst →
      (keys.map Prod.fst).Nodup →
      invTable ts →
      (∀ r ∈ ts.rows, "value" ∈ r.map Prod.fst) →
      ∃ st2, MultiKeyDB.put st t keys v = .ok st2 ∧ MultiKeyDB.get st2 t keys = .ok v) :=
  ⟨decode_encode v, fun st t ts keys h1 h2 h3 h4 h5 h6 =>
    put_get_aux v st t ts keys h1 h2 h3 h4 h5 h6⟩

theorem value_round_trip_witness :
    decode (encode (JVal.num 9)) = some (JVal.num 9) ∧
    (∃ st2, MultiKeyDB.put demoStore "t" [("a", Prim.int 1)] (JVal.num 9) = .ok st2 ∧
      MultiKeyDB.get st2 "t" [("a", Prim.int 1)] = .ok (JVal.num 9)) :=
  ⟨(value_round_trip (JVal.num 9)).1,
    (value_round_trip (JVal.num 9)).2 demoStore "t" demoTable [("a", Prim.int 1)] rfl
      (by decide) rfl (by decide) (by decide) (by decide)⟩

/-- C7 counterexample: at a store whose table holds two records matching the
complete key mapping `a = 1`, `get` silently returns the first matching record's
decoded payload (`7`) instead of treating the situation as an
internal-consistency fault — refuting the claim as stated. -/
theorem get_duplicate_counterexample :
    (dupRowTable.rows.filter (matchesRow [("a", Prim.int 1)])).length = 2 ∧
    MultiKeyDB.get dupRowStore "t" [("a", Prim.int 1)] = .ok (JVal.num 7) :=
  ⟨rfl, rfl⟩

/-- C7 amended: when `get` is called with a complete key mapping and more than
one stored record matches the predicate, the implementation raises no fault and
silently returns the first matching record's decoded payload. -/
theorem get_duplicate_returns_first (st : Store) (t : String) (ts : TableState)
    (keys : List (String × Prim)) (r1 r2 : Row) (rest2 : List Row) (s : String) (v : JVal)
    (hts : alookup st.tables t = some ts)
    (hc : keysComplete ts.tdef keys = true)
    (hnv : (keys.any fun kv => decide (kv.1 = "value")) = false)
    (hk : keysKnown ts.tdef keys = true)
    (hf : ts.rows.filter (matchesRow keys) = r1 :: r2 :: rest2)
    (hval : alookup r1 "value" = some (Prim.str s))
    (hdec : decode s = some v) :
    MultiKeyDB.get st t keys = .ok v :=
  get_found st t ts keys r1 (r2 :: rest2) s v hts hc hnv hk hf hval hdec

theorem get_duplicate_returns_first_witness :
    MultiKeyDB.get dupRowStore "t" [("a", Prim.int 1)] = .ok (JVal.num 7) :=
  get_duplicate_returns_first dupRowStore "t" dupRowTable [("a", Prim.int 1)]
    [("a", Prim.int 1), ("value", Prim.str "7")] [("a", Prim.int 1), ("value", Prim.str "8")]
    [] "7" (JVal.num 7) rfl (by decide) (by decide) (by decide) rfl rfl rfl

/-- C9: `get` returns the Python value `None` (= `JVal.null` in the embedding)
both when no record matches the key tuple and after a null payload was stored
for it by `put`, so a caller cannot tell the two cases apart from the result of
`get` alone. -/
theorem get_none_ambiguous (st : Store) (t : String) (ts : TableState)
    (keys : List (String × Prim))
    (hts : alookup st.tables t = some ts)
    (hval : ¬("value" ∈ ts.tdef.keys.map Prod.fst))
    (hnames : keys.map Prod.fst = ts.tdef.keys.map Prod.fst)
    (hnodup : (keys.map Prod.fst).Nodup)
    (hinv : invTable ts)
    (hrowsWF : ∀ r ∈ ts.rows, "value" ∈ r.map Prod.fst) :
    (ts.rows.filter (matchesRow keys) = [] → MultiKeyDB.get st t keys = .ok JVal.null) ∧
    (∃ st2, MultiKeyDB.put st t keys JVal.null = .ok st2 ∧
      MultiKeyDB.get st2 t keys = .ok JVal.null) := by
  constructor
  · intro hf
    exact get_absent st t ts keys hts (keysComplete_exact ts.tdef keys hnames)
      (anyValue_false keys (by rw [hnames]; exact hval))
      (keysKnown_exact ts.tdef keys hnames) hf
  · exact put_get_aux JVal.null st t ts keys hts hval hnames hnodup hinv hrowsWF

theorem get_none_ambiguous_witness :
    MultiKeyDB.get demoStore "t" [("a", Prim.int 1)] = .ok JVal.null ∧
    (∃ st2, MultiKeyDB.put demoStore "t" [("a", Prim.int 1)] JVal.null = .ok st2 ∧
      MultiKeyDB.get st2 "t" [("a", Prim.int 1)] = .ok JVal.null) :=
  ⟨(get_none_ambiguous demoStore "t" demoTable [("a", Prim.int 1)] rfl (by decide) rfl
      (by decide) (by decide) (by decide)).1 rfl,
    (get_none_ambiguous demoStore "t" demoTable [("a", Prim.int 1)] rfl (by decide) rfl
      (by decide) (by decide) (by decide)).2⟩

theorem list_filter_congr {α : Type} (l : List α) (p q : α → Bool)
    (h : ∀ a ∈ l, p a = q a) : l.filter p = l.filter q := by
  induction l with
  | nil => rfl
  | cons a t ih =>
    rw [List.filter_cons, List.filter_cons, h a (by simp),
      ih (fun x hx => h x (by simp [hx]))]

/-- C10: unlike `get`, `delete` accepts a key mapping that also carries a
`value` entry: the completeness assert passes, the entry becomes one more
equality constraint in the predicate (so a record is removed only if its stored
encoded payload equals the supplied value too), while `get` with the same
mapping raises `InvalidKeyError`. -/
theorem delete_value_entry (st : Store) (t : String) (ts : TableState)
    (kk : List (String × Prim)) (pv : Prim)
    (hts : alookup st.tables t = some ts)
    (hnames : kk.map Prod.fst = ts.tdef.keys.map Prod.fst) :
    MultiKeyDB.delete st t (kk ++ [("value", pv)]) =
      .ok (updateTable st t ⟨ts.tdef, ts.rows.filter
        (fun r => !(matchesRow kk r && decide (alookup r "value" = some pv)))⟩) ∧
    MultiKeyDB.get st t (kk ++ [("value", pv)]) = .error .invalidKey := by
  have hc : keysComplete ts.tdef (kk ++ [("value", pv)]) = true := by
    apply keysComplete_of_cover
    intro c hcmem
    rw [List.map_append]
    exact List.mem_append.mpr (Or.inl (hnames ▸ hcmem))
  have hk : keysKnown ts.tdef (kk ++ [("value", pv)]) = true := by
    apply keysKnown_of_sub
    intro c hcmem
    rw [List.map_append] at hcmem
    rcases List.mem_append.mp hcmem with h1 | h2
    · rw [TableDef.columns]
      exact List.mem_append.mpr (Or.inl (hnames ▸ h1))
    · simp only [List.map_cons, List.map_nil, List.mem_singleton] at h2
      rw [TableDef.columns, h2]
      simp
  have hany : ((kk ++ [("value", pv)]).any fun kv => decide (kv.1 = "value")) = true := by
    rw [List.any_append]
    simp
  have hmsplit : ∀ r, matchesRow (kk ++ [("value", pv)]) r =
      (matchesRow kk r && decide (alookup r "value" = some pv)) := by
    intro r
    rw [matchesRow, matchesRow, List.all_append]
    simp [matchesRow]
  constructor
  · simp only [MultiKeyDB.delete, hts, hc, if_true, hk]
    have hfe : ts.rows.filter (fun r => !matchesRow (kk ++ [("value", pv)]) r) =
        ts.rows.filter (fun r => !(matchesRow kk r && decide (alookup r "value" = some pv))) := by
      apply list_filter_congr
      intro r _
      rw [hmsplit r]
    rw [hfe]
  · simp only [MultiKeyDB.get, hts, hc, if_true, hany]

theorem delete_value_entry_witness :
    MultiKeyDB.delete twoRowStore "t" ([("a", Prim.int 1)] ++ [("value", Prim.str "8")]) =
      .ok (updateTable twoRowStore "t" ⟨twoRowTable.tdef, twoRowTable.rows.filter
        (fun r => !(matchesRow [("a", Prim.int 1)] r &&
          decide (alookup r "value" = some (Prim.str "8"))))⟩) ∧
    MultiKeyDB.get twoRowStore "t" ([("a", Prim.int 1)] ++ [("value", Prim.str "8")]) =
      .error .invalidKey :=
  delete_value_entry twoRowStore "t" twoRowTable [("a", Prim.int 1)] (Prim.str "8") rfl rfl

theorem decodeCol_ok (r : Row) (c : String) (h : colOk r c = true) :
    decodeCol r c = .ok (decodeColD r c) := by
  rw [colOk] at h
  rw [decodeCol, decodeColD]
  by_cases hv : c = "value"
  · rw [if_pos hv] at h ⊢
    rw [if_pos hv]
    cases hl : alookup r c with
    | none => rw [hl] at h; cases h
    | some p =>
      rw [hl] at h
      cases p with
      | int i => cases h
      | str s =>
        simp only [] at h ⊢
        cases hd : decode s with
        | none => rw [hd] at h; simp at h
        | some v => rfl
  · rw [if_neg hv] at h ⊢
    rw [if_neg hv]
    cases hl : alookup r c with
    | none => rw [hl] at h; cases h
    | some p => rfl

theorem mapExcept_ok {A B : Type} (f : A → Except Err B) (g : A → B) (l : List A)
    (h : ∀ x ∈ l, f x = .ok (g x)) : mapExcept f l = .ok (l.map g) := by
  induction l with
  | nil => rfl
  | cons a t ih =>
    rw [mapExcept, h a (by simp), ih (fun x hx => h x (by simp [hx]))]
    simp

/-- C5: `filter` with an empty mapping returns every stored record with all
columns present and the value column decoded; `filter` with a partial mapping
`[(a, x)]` returns exactly the records whose column `a` equals `x`, each
returned mapping omitting column `a` and containing all remaining columns. -/
theorem filter_partiality (st : Store) (t : String) (ts : TableState) (a : String) (x : Prim)
    (hts : alookup st.tables t = some ts)
    (hrows : ∀ r ∈ ts.rows, rowOk ts.tdef r = true)
    (ha : a ∈ ts.tdef.columns) :
    MultiKeyDB.filter st t [] =
      .ok (ts.rows.map (fun r => ts.tdef.columns.map (decodeColD r))) ∧
    MultiKeyDB.filter st t [(a, x)] =
      .ok ((ts.rows.filter (matchesRow [(a, x)])).map
        (fun r => (ts.tdef.columns.filter (fun c => !(decide (a = c)))).map (decodeColD r))) ∧
    (∀ out ∈ (ts.rows.filter (matchesRow [(a, x)])).map
        (fun r => (ts.tdef.columns.filter (fun c => !(decide (a = c)))).map (decodeColD r)),
      ∀ kv ∈ out, ¬(kv.1 = a)) := by
  refine ⟨?_, ?_, ?_⟩
  · simp only [MultiKeyDB.filter, hts, List.isEmpty_nil, if_true]
    have hrem : ts.tdef.columns.filter
        (fun c => !(([] : List (String × Prim)).any fun kv => decide (kv.1 = c))) =
        ts.tdef.columns := by
      rw [List.filter_eq_self]
      intro c _
      simp
    rw [hrem]
    exact mapExcept_ok _ _ ts.rows (fun r hr =>
      mapExcept_ok _ _ ts.tdef.columns (fun c hc =>
        decodeCol_ok r c (by
          have h2 := hrows r hr
          rw [rowOk, List.all_eq_true] at h2
          exact h2 c hc)))
  · have hkk : keysKnown ts.tdef [(a, x)] = true := by
      rw [keysKnown, List.all_eq_true]
      intro kv hkv
      simp only [List.mem_singleton] at hkv
      rw [hkv, memStr_iff]
      exact ha
    simp only [MultiKeyDB.filter, hts, List.isEmpty_cons, Bool.false_eq_true, if_false, hkk,
      if_true]
    have hrem : ts.tdef.columns.filter
        (fun c => !([(a, x)].any fun kv => decide (kv.1 = c))) =
        ts.tdef.columns.filter (fun c => !(decide (a = c))) := by
      apply list_filter_congr
      intro c _
      simp
    rw [hrem]
    exact mapExcept_ok _ _ _ (fun r hr =>
      mapExcept_ok _ _ _ (fun c hc =>
        decodeCol_ok r c (by
          have h2 := hrows r (List.mem_filter.mp hr).1
          rw [rowOk, List.all_eq_true] at h2
          exact h2 c (List.mem_filter.mp hc).1)))
  · intro out hout kv hkv
    obtain ⟨r, _, hre⟩ := List.mem_map.mp hout
    subst hre
    obtain ⟨c, hcmem, hce⟩ := List.mem_map.mp hkv
    have hcne : ¬(a = c) := by
      have h2 := (List.mem_filter.mp hcmem).2
      simpa using h2
    subst hce
    intro he
    rw [decodeColD] at he
    simp only at he
    exact hcne he.symm

theorem filter_partiality_witness :
    MultiKeyDB.filter twoRowStore "t" [] =
      .ok (twoRowTable.rows.map (fun r => twoRowTable.tdef.columns.map (decodeColD r))) ∧
    MultiKeyDB.filter twoRowStore "t" [("a", Prim.int 1)] =
      .ok ((twoRowTable.rows.filter (matchesRow [("a", Prim.int 1)])).map
        (fun r =>
          (twoRowTable.tdef.columns.filter (fun c => !(decide ("a" = c)))).map (decodeColD r))) ∧
    (∀ out ∈ (twoRowTable.rows.filter (matchesRow [("a", Prim.int 1)])).map
        (fun r =>
          (twoRowTable.tdef.columns.filter (fun c => !(decide ("a" = c)))).map (decodeColD r)),
      ∀ kv ∈ out, ¬(kv.1 = "a")) :=
  filter_partiality twoRowStore "t" twoRowTable "a" (Prim.int 1) rfl (by decide) (by decide)
